import Mathlib

/-!
# Verification of the rapidAligner ED core (cuseries/ED)

Shallow embedding of the sliding-window Euclidean-distance engine:

* `cuseries/ED/stream_dists_helpers.py` — `cumsum` (stabilized prefix sum),
  `mnorm`, `znorm`;
* `cuseries/ED/stream_dists_fft.py` — `fft_sdist`, `fft_mdist`, `fft_zdist`
  (transform-domain path);
* `cuseries/ED/stream_dists_kernels.py` — `sdist_kernel`, `mdist_kernel`,
  `zdist_kernel` (direct reduction kernels);
* `cuseries/ED/__init__.py` — the dispatch layer `sdist`, `mdist`, `zdist`.

Arrays are `List α` over a linear ordered field (`ℚ` for executable checks,
`ℝ` where `sqrt` is needed).  Machine floats are modelled by exact field
arithmetic.  Fallible operations (a bare Python `assert`, a NumPy broadcast
error, `cp.max` over a zero-size array) are modelled with `Option`/`Except`.
-/

set_option autoImplicit false

namespace RapidAligner

variable {α : Type} [LinearOrderedField α]

/-! ### Elementwise array operations (NumPy semantics)

NumPy binary elementwise operations on two 1-D arrays succeed when the
shapes agree and raise a broadcast `ValueError` otherwise (no array of
length 1 ever meets a mismatched length in this code, so the length-1
broadcast case is irrelevant and not modelled). -/

/-- Elementwise `a + b`; `none` models the broadcast `ValueError` on
mismatched lengths. -/
def ewAdd (a b : List α) : Option (List α) :=
  if a.length = b.length then some (List.zipWith (fun u v => u + v) a b) else none

/-- Elementwise `a - b`; `none` models the broadcast `ValueError`. -/
def ewSub (a b : List α) : Option (List α) :=
  if a.length = b.length then some (List.zipWith (fun u v => u - v) a b) else none

/-- Elementwise `a / b`; `none` models the broadcast `ValueError`. -/
def ewDiv (a b : List α) : Option (List α) :=
  if a.length = b.length then some (List.zipWith (fun u v => u / v) a b) else none

/-- Python slice `a[:j]` for an `int` bound `j` (negative bounds count from
the end, clamped at zero). -/
def sliceTo (a : List α) (j : ℤ) : List α :=
  a.take (if j < 0 then ((a.length : ℤ) + j).toNat else j.toNat)

/-! ### `stream_dists_helpers.py` -/

/-- Denotation of `y = cp.empty(len(x)+1); y[0] = 0; cp.cumsum(x, out=y[1:])`:
the exclusive prefix sum, `y[i] = x[0] + ... + x[i-1]`. -/
def prefixSums (x : List α) : List α :=
  (List.range (x.length + 1)).map fun i => (x.take i).sum

/-- Denotation of `cp.diff(y)`: `d[i] = y[i+1] - y[i]`. -/
def diffList (y : List α) : List α :=
  List.zipWith (fun u v => u - v) y.tail y

/-- `cumsum(x, Kahan)` from `stream_dists_helpers.py`: exclusive prefix sum
with up to `Kahan` rounds of residual correction.  The residual is
`r = x - cp.diff(y)`; `if(cp.max(cp.abs(r))):` raises a `ValueError` when
`r` is a zero-size array (modelled by `none`), and otherwise recurses when
some residual entry is nonzero, adding the correction into `y`
(`y += cumsum(r, Kahan-1)`, an equal-length elementwise add). -/
def cumsum (x : List α) : ℕ → Option (List α)
  | 0 => some (prefixSums x)
  | K + 1 =>
    let y := prefixSums x
    let r := List.zipWith (fun u v => u - v) x (diffList y)
    if r = [] then none
    else if r.any fun v => decide (v ≠ 0) then
      (cumsum r K).bind fun c => ewAdd y c
    else some y

/-- Mean of an array, `cp.mean(x)` (division by the length; `0` on the
zero-length array, which the valid call surface never produces). -/
def listMean (x : List α) : α := x.sum / x.length

/-- `mnorm(x)` from `stream_dists_helpers.py`: `x - cp.mean(x)`. -/
def mnorm (x : List α) : List α := x.map fun v => v - listMean x

/-- Population variance with divisor `len(x)`: the square of
`cp.std(x, ddof=0)`. -/
def popVar (x : List α) : α := (x.map fun v => (v - listMean x) ^ 2).sum / x.length

/-- `cp.std(x, ddof=0)`: population standard deviation, divisor `len(x)`. -/
noncomputable def popStd (x : List ℝ) : ℝ := Real.sqrt (popVar x)

/-- `znorm(x, epsilon)` from `stream_dists_helpers.py`:
`(x - cp.mean(x)) / max(cp.std(x, ddof=0), epsilon)`. -/
noncomputable def znorm (x : List ℝ) (ε : ℝ) : List ℝ :=
  x.map fun v => (v - listMean x) / max (popStd x) ε

/-! ### `stream_dists_fft.py` -/

/-- Pad length `n = (len(S)+alignment-1)//alignment*alignment`. -/
def alignUp (n alignment : ℕ) : ℕ := (n + alignment - 1) / alignment * alignment

/-- Zero-padded buffer `iS = cp.zeros(n); iS[:len(x)] = x` (for the `n ≥
len(x)` shapes produced by `alignUp` with a positive alignment). -/
def padTo (x : List α) (n : ℕ) : List α :=
  x.take n ++ List.replicate (n - x.length) 0

/-- Entry `k` of the exact-arithmetic denotation of
`cp.fft.irfft(cp.fft.rfft(E).conj()*cp.fft.rfft(iS), n=n)`: by the
cross-correlation theorem this transform chain computes the circular
cross-correlation `R[k] = sum_i E[i] * iS[(i+k) mod n]`. -/
def xcorrEntry (E iS : List α) (n k : ℕ) : α :=
  ∑ i ∈ Finset.range n, E.getD i 0 * iS.getD ((i + k) % n) 0

/-- The full length-`n` cross-correlation array `R`. -/
def xcorr (E iS : List α) (n : ℕ) : List α :=
  (List.range n).map fun k => xcorrEntry E iS n k

/-- `cp.sum(cp.square(x))`. -/
def sumSq (x : List α) : α := (x.map fun v => v * v).sum

/-- One entry of `cp.where(Z > 0, 2*(m - R[:-m+1]/Z), m*cp.ones_like(Z))`
given the entry `z` of `Z` and the already-divided entry `q` of
`R[:-m+1]/Z`. -/
def zWhereEntry (m : ℕ) (z q : α) : α :=
  if 0 < z then 2 * ((m : α) - q) else (m : α)

/-- Windowed aggregate over `[k, k+m)` as the transform path derives it:
the `m`-apart difference `c[k+m] - c[k]` of the exclusive prefix sums `c`
of `x` (the entries of `cumsum x 0`). -/
def winAgg (x : List α) (m k : ℕ) : α := (x.take (k + m)).sum - (x.take k).sum

/-- Entry `k` of the raw transform-domain formula of `fft_sdist` before the
final slice: `cp.sum(cp.square(Q)) - 2*R[k] + Y[k]` with `R` the
cross-correlation of the padded query against the padded stream and `Y`
the windowed sum of squares. -/
def sdistFftEntry (Q S : List α) (n k : ℕ) : α :=
  sumSq Q - 2 * xcorrEntry (padTo Q n) (padTo S n) n k +
    winAgg ((padTo S n).map fun v => v * v) Q.length k

/-- Entry `k` of the mean-adjusted transform-domain formula of `fft_mdist`:
`cp.sum(cp.square(mnorm Q)) - 2*R[k] + (Y[k] - X[k]*X[k]/m)`. -/
def mdistFftEntry (Q S : List α) (n k : ℕ) : α :=
  let m := Q.length
  let Qn := mnorm Q
  let X := winAgg (padTo S n) m k
  let Y := winAgg ((padTo S n).map fun v => v * v) m k
  sumSq Qn - 2 * xcorrEntry (padTo Qn n) (padTo S n) n k + (Y - X * X / (m : α))

/-- Entry `k` of the Z-normalized transform-domain formula of `fft_zdist`:
`Z[k] = sqrt(max(Y[k]/m - (X[k]/m)^2, 0))` and then
`2*(m - R[k]/Z[k])` where `Z[k] > 0`, else `m`. -/
noncomputable def zdistFftEntry (Q S : List ℝ) (ε : ℝ) (n k : ℕ) : ℝ :=
  let m := Q.length
  let Qn := znorm Q ε
  let X := winAgg (padTo S n) m k
  let Y := winAgg ((padTo S n).map fun v => v * v) m k
  let Z := Real.sqrt (max (Y / m - (X / m) ^ 2) 0)
  zWhereEntry m Z (xcorrEntry (padTo Qn n) (padTo S n) n k / Z)

/-- `fft_sdist(Q, S, alignment, Kahan)` from `stream_dists_fft.py`:
`Y = cumsum(iS**2, Kahan); Y = Y[+m:]-Y[:-m]`, then
`(cp.sum(cp.square(Q)) - 2*R[:-m+1] + Y)[:len(S)-m+1]`. -/
def fftSdist (Q S : List α) (alignment Kahan : ℕ) : Option (List α) :=
  let m := Q.length
  let n := alignUp S.length alignment
  let iS := padTo S n
  (cumsum (iS.map fun v => v * v) Kahan).bind fun Yc =>
  (ewSub (Yc.drop m) (sliceTo Yc (-(m : ℤ)))).bind fun Y =>
  let E := padTo Q n
  let R := xcorr E iS n
  (ewAdd ((sliceTo R (1 - (m : ℤ))).map fun r => sumSq Q - 2 * r) Y).map fun res =>
  sliceTo res ((S.length : ℤ) - (m : ℤ) + 1)

/-- `fft_mdist(Q, S, alignment, Kahan)` from `stream_dists_fft.py`: the
query is first mean-adjusted, `X`/`Y` are the windowed sum and sum of
squares, `Z = Y - X*X/m`, and the result is
`(cp.sum(cp.square(Q)) - 2*R[:-m+1] + Z)[:len(S)-m+1]`. -/
def fftMdist (Q S : List α) (alignment Kahan : ℕ) : Option (List α) :=
  let m := Q.length
  let Qn := mnorm Q
  let n := alignUp S.length alignment
  let iS := padTo S n
  (cumsum iS Kahan).bind fun Xc =>
  (cumsum (iS.map fun v => v * v) Kahan).bind fun Yc =>
  (ewSub (Xc.drop m) (sliceTo Xc (-(m : ℤ)))).bind fun X =>
  (ewSub (Yc.drop m) (sliceTo Yc (-(m : ℤ)))).bind fun Y =>
  let Z := List.zipWith (fun y x => y - x * x / (m : α)) Y X
  let E := padTo Qn n
  let R := xcorr E iS n
  (ewAdd ((sliceTo R (1 - (m : ℤ))).map fun r => sumSq Qn - 2 * r) Z).map fun res =>
  sliceTo res ((S.length : ℤ) - (m : ℤ) + 1)

/-- `fft_zdist(Q, S, epsilon, alignment, Kahan)` from `stream_dists_fft.py`:
asserts `epsilon > 0`, z-normalizes the query,
`Z = cp.sqrt(cp.maximum(Y/m - cp.square(X/m), 0))`, and returns
`cp.where(Z > 0, 2*(m - R[:-m+1]/Z), m*cp.ones_like(Z))[:len(S)-m+1]`. -/
noncomputable def fftZdist (Q S : List ℝ) (ε : ℝ) (alignment Kahan : ℕ) :
    Option (List ℝ) :=
  if 0 < ε then
    let m := Q.length
    let Qn := znorm Q ε
    let n := alignUp S.length alignment
    let iS := padTo S n
    (cumsum iS Kahan).bind fun Xc =>
    (cumsum (iS.map fun v => v * v) Kahan).bind fun Yc =>
    (ewSub (Xc.drop m) (sliceTo Xc (-(m : ℤ)))).bind fun X =>
    (ewSub (Yc.drop m) (sliceTo Yc (-(m : ℤ)))).bind fun Y =>
    let Z := List.zipWith (fun y x => Real.sqrt (max (y / m - (x / m) ^ 2) 0)) Y X
    let E := padTo Qn n
    let R := xcorr E iS n
    (ewDiv (sliceTo R (1 - (m : ℤ))) Z).bind fun quot =>
    some (sliceTo (List.zipWith (fun z q => zWhereEntry m z q) Z quot)
      ((S.length : ℤ) - (m : ℤ) + 1))
  else none

/-! ### `stream_dists_kernels.py`

Each kernel partitions the `m` per-window indices across the 32 lanes of a
warp (`for index in range(laneIdx, Q.shape[0], 32)`), then sums the 32 lane
partials with a 5-round shuffle reduction (offsets 16, 8, 4, 2, 1).  Its
exact-arithmetic denotation is the sum of the per-lane strided partial
sums; the strided outer loop assigns every window position `0 ≤ k <
n-m+1` to exactly one warp, which writes `out[k]` once. -/

/-- Warp-level reduction: sum, over the 32 lanes, of the partial sum each
lane accumulates over its strided index subset `{i < m | i % 32 = lane}`. -/
def warpSum (m : ℕ) (f : ℕ → α) : α :=
  ∑ lane ∈ Finset.range 32, ∑ i ∈ (Finset.range m).filter (fun i => i % 32 = lane), f i

/-- `sdist_kernel` body at window `position = k`:
`accum += (Q[index]-S[position+index])**2` over the warp. -/
def sdistKernelOut (Q S : List α) (k : ℕ) : α :=
  warpSum Q.length fun i =>
    (Q.getD i 0 - S.getD (k + i) 0) * (Q.getD i 0 - S.getD (k + i) 0)

/-- The array written by launching `sdist_kernel[80*32, 64](Q, S, out)` on
`out = cp.empty(len(S)-len(Q)+1)`. -/
def sdistKernelRun (Q S : List α) : List α :=
  (List.range (S.length + 1 - Q.length)).map fun k => sdistKernelOut Q S k

/-- `mdist_kernel` body at window `k`: first pass reduces the windowed sum
into `mean = accum/Q.shape[0]`, second pass accumulates
`(Q[index]-S[position+index]+mean)**2`. -/
def mdistKernelOut (Q S : List α) (k : ℕ) : α :=
  let mean := warpSum Q.length (fun i => S.getD (k + i) 0) / (Q.length : α)
  warpSum Q.length fun i =>
    (Q.getD i 0 - S.getD (k + i) 0 + mean) * (Q.getD i 0 - S.getD (k + i) 0 + mean)

/-- The array written by `mdist_kernel[80*32, 64](Q, S, out)`. -/
def mdistKernelRun (Q S : List α) : List α :=
  (List.range (S.length + 1 - Q.length)).map fun k => mdistKernelOut Q S k

/-- `zdist_kernel` body at window `k`: the first pass reduces the windowed
sum and sum of squares, `mean = accum1/m`, `sigma = accum2/m - mean*mean`,
`sigma = sqrt(sigma) if sigma > 0.0 else epsilon`; the second pass
accumulates `(Q[index] - (S[position+index]-mean)/sigma)**2`. -/
noncomputable def zdistKernelOut (Q S : List ℝ) (ε : ℝ) (k : ℕ) : ℝ :=
  let accum1 := warpSum Q.length fun i => S.getD (k + i) 0
  let accum2 := warpSum Q.length fun i => S.getD (k + i) 0 * S.getD (k + i) 0
  let mean := accum1 / (Q.length : ℝ)
  let sigma0 := accum2 / (Q.length : ℝ) - mean * mean
  let sigma := if 0 < sigma0 then Real.sqrt sigma0 else ε
  warpSum Q.length fun i =>
    (Q.getD i 0 - (S.getD (k + i) 0 - mean) / sigma) *
      (Q.getD i 0 - (S.getD (k + i) 0 - mean) / sigma)

/-- The array written by `zdist_kernel[80*32, 64](Q, S, out, epsilon)`. -/
noncomputable def zdistKernelRun (Q S : List ℝ) (ε : ℝ) : List ℝ :=
  (List.range (S.length + 1 - Q.length)).map fun k => zdistKernelOut Q S ε k

/-! ### `__init__.py` — the dispatch layer -/

/-- Element type tag of a device array (the code supports single and double
precision floats; only equality of the tags matters to validation). -/
inductive DType
  | float32
  | float64
deriving DecidableEq

/-- A device-resident array after the `cp.asarray` coercion: a dtype, a
shape, and the flat contents (for the rank-1 arrays of interest,
`data.length = shape[0]`). -/
structure CArray (α : Type) where
  dtype : DType
  shape : List ℕ
  data : List α

/-- The two Python error outcomes reachable from the dispatch layer: a bare
`assert` raises `AssertionError` (with no message — every failed contract
check produces this same value), and a shape/broadcast failure inside the
transform path raises `ValueError`. -/
inductive PyErr
  | assertionError
  | valueError
deriving DecidableEq

/-- The shape contract checked by every public operation:
`len(Q.shape) == len(S.shape) == 1 and Q.shape[0] <= S.shape[0]`. -/
def shapesOk (Q S : CArray α) : Prop :=
  Q.shape.length = 1 ∧ S.shape.length = 1 ∧ Q.shape.getD 0 0 ≤ S.shape.getD 0 0

instance (Q S : CArray α) : Decidable (shapesOk Q S) := by
  unfold shapesOk; infer_instance

/-- `sdist(Q, S, mode)` from `__init__.py`: asserts dtype equality and the
shape contract, then dispatches on `mode == "fft"` to `fft_sdist(Q, S)`
(defaults `alignment=10000`, `Kahan=0`) or to `sdist_kernel`. -/
def sdistModel (Q S : CArray α) (mode : String) : Except PyErr (List α) :=
  if Q.dtype = S.dtype then
    if shapesOk Q S then
      if mode = "fft" then
        match fftSdist Q.data S.data 10000 0 with
        | some Z => Except.ok Z
        | none => Except.error PyErr.valueError
      else Except.ok (sdistKernelRun Q.data S.data)
    else Except.error PyErr.assertionError
  else Except.error PyErr.assertionError

/-- `mdist(Q, S, mode)` from `__init__.py`: same validation; the direct
path launches `mdist_kernel(mnorm(Q), S, Z)`. -/
def mdistModel (Q S : CArray α) (mode : String) : Except PyErr (List α) :=
  if Q.dtype = S.dtype then
    if shapesOk Q S then
      if mode = "fft" then
        match fftMdist Q.data S.data 10000 0 with
        | some Z => Except.ok Z
        | none => Except.error PyErr.valueError
      else Except.ok (mdistKernelRun (mnorm Q.data) S.data)
    else Except.error PyErr.assertionError
  else Except.error PyErr.assertionError

/-- `zdist(Q, S, mode, epsilon)` from `__init__.py`: asserts, in order,
`epsilon > 0`, dtype equality, the shape contract, and
`cp.std(Q, ddof=0) > 0`; then dispatches on `mode == "fft"` to
`fft_zdist(Q, S, epsilon)` or launches
`zdist_kernel(znorm(Q, epsilon), S, Z, epsilon)`. -/
noncomputable def zdistModel (Q S : CArray ℝ) (mode : String) (ε : ℝ) :
    Except PyErr (List ℝ) :=
  if 0 < ε then
    if Q.dtype = S.dtype then
      if shapesOk Q S then
        if 0 < popStd Q.data then
          if mode = "fft" then
            match fftZdist Q.data S.data ε 10000 0 with
            | some Z => Except.ok Z
            | none => Except.error PyErr.valueError
          else Except.ok (zdistKernelRun (znorm Q.data ε) S.data ε)
        else Except.error PyErr.assertionError
      else Except.error PyErr.assertionError
    else Except.error PyErr.assertionError
  else Except.error PyErr.assertionError

/-! ### Foundational lemmas -/

theorem sum_eq_sum_getD (l : List α) :
    l.sum = ∑ i ∈ Finset.range l.length, l.getD i 0 := by
  induction l with
  | nil => simp
  | cons a t ih =>
    rw [List.sum_cons, List.length_cons, Finset.sum_range_succ']
    simp only [List.getD_cons_succ, List.getD_cons_zero]
    rw [← ih, add_comm]

theorem prefixSums_length (x : List α) : (prefixSums x).length = x.length + 1 := by
  simp [prefixSums]

theorem prefixSums_getElem (x : List α) (i : ℕ) (h : i < (prefixSums x).length) :
    (prefixSums x)[i] = (x.take i).sum := by
  simp [prefixSums]

theorem winAgg_eq_sum (x : List α) (m k : ℕ) (h : k + m ≤ x.length) :
    winAgg x m k = ∑ i ∈ Finset.range m, x.getD (k + i) 0 := by
  induction m with
  | zero => simp [winAgg]
  | succ m ih =>
    have hlt : k + m < x.length := by omega
    rw [Finset.sum_range_succ, ← ih (by omega)]
    unfold winAgg
    rw [show k + (m + 1) = (k + m) + 1 by ring, List.sum_take_succ x (k + m) hlt,
      List.getD_eq_getElem x 0 hlt]
    ring

theorem zipWith_sub_self (x : List α) :
    List.zipWith (fun u v => u - v) x x = List.replicate x.length 0 := by
  induction x with
  | nil => rfl
  | cons a t ih => simp [ih, List.replicate_succ]

theorem diffList_prefixSums (x : List α) : diffList (prefixSums x) = x := by
  apply List.ext_getElem
  · simp [diffList, prefixSums]
  · intro i h1 h2
    have hx : i < x.length := h2
    have hlen : i + 1 < (prefixSums x).length := by rw [prefixSums_length]; omega
    simp only [diffList, List.getElem_zipWith, List.getElem_tail]
    rw [prefixSums_getElem x (i + 1) hlen,
      prefixSums_getElem x i (by rw [prefixSums_length]; omega),
      List.sum_take_succ x i hx]
    ring

theorem cumsum_eq (x : List α) (K : ℕ) (h : x ≠ [] ∨ K = 0) :
    cumsum x K = some (prefixSums x) := by
  cases K with
  | zero => rfl
  | succ K =>
    have hx : x ≠ [] := h.resolve_right (by simp)
    have hlen : x.length ≠ 0 := by simpa [List.length_eq_zero] using hx
    have h1 : List.zipWith (fun u v => u - v) x (diffList (prefixSums x))
        = List.replicate x.length 0 := by
      rw [diffList_prefixSums, zipWith_sub_self]
    have h2 : List.replicate x.length (0 : α) ≠ [] := by
      intro hc
      exact hlen (by simpa using congrArg List.length hc)
    have h3 : (List.replicate x.length (0 : α)).any (fun v => decide (v ≠ 0))
        = false := by
      rw [List.any_eq_false]
      intro v hv
      simp [List.eq_of_mem_replicate hv]
    show cumsum x (K + 1) = some (prefixSums x)
    simp only [cumsum, h1]
    simp [h2, h3]

theorem padTo_length (x : List α) (n : ℕ) : (padTo x n).length = n := by
  simp [padTo]; omega

theorem padTo_getD_lt (x : List α) (n i : ℕ) (h : i < x.length) (h2 : i < n) :
    (padTo x n).getD i 0 = x.getD i 0 := by
  have ht : i < (x.take n).length := by simp; omega
  unfold padTo
  rw [List.getD_eq_getElem _ 0 (by simp [padTo_length]; omega),
    List.getElem_append_left ht, List.getElem_take, List.getD_eq_getElem x 0 h]

theorem padTo_getD_ge (x : List α) (n i : ℕ) (h : x.length ≤ i) :
    (padTo x n).getD i 0 = 0 := by
  rcases lt_or_ge i n with hlt | hge
  · have hxn : x.length < n := by omega
    have ht : (x.take n).length = x.length := by simp; omega
    have hi : (x.take n).length ≤ i := by omega
    unfold padTo
    rw [List.getD_eq_getElem _ 0 (by simp [padTo_length]; omega)]
    rw [List.getElem_append_right hi]
    exact List.getElem_replicate ..
  · apply List.getD_eq_default
    rw [padTo_length]; omega

theorem warpSum_eq (m : ℕ) (f : ℕ → α) :
    warpSum m f = ∑ i ∈ Finset.range m, f i :=
  Finset.sum_fiberwise_of_maps_to
    (fun i _ => Finset.mem_range.2 (Nat.mod_lt _ (by norm_num))) f

theorem xcorrEntry_eq (Q S : List α) (n k : ℕ)
    (hQ : Q.length ≤ n) (hS : S.length ≤ n) (hk : k + Q.length ≤ S.length) :
    xcorrEntry (padTo Q n) (padTo S n) n k
      = ∑ i ∈ Finset.range Q.length, Q.getD i 0 * S.getD (k + i) 0 := by
  unfold xcorrEntry
  rw [← Finset.sum_subset (Finset.range_subset.2 hQ)]
  · apply Finset.sum_congr rfl
    intro i hi
    have hi' : i < Q.length := Finset.mem_range.1 hi
    have h1 : (i + k) % n = i + k := Nat.mod_eq_of_lt (by omega)
    rw [h1, padTo_getD_lt Q n i hi' (by omega),
      padTo_getD_lt S n (i + k) (by omega) (by omega), Nat.add_comm i k]
  · intro i _ hiQ
    rw [padTo_getD_ge Q n i (by simpa using hiQ), zero_mul]

/-! ### Pipeline bridge lemmas

These reduce each transform-domain pipeline, step by step, to a map of the
per-entry formula over the window indices. -/

theorem le_alignUp (n al : ℕ) (hal : 0 < al) : n ≤ alignUp n al := by
  unfold alignUp
  rcases Nat.eq_zero_or_pos n with h | h
  · simp [h]
  · have h1 : n + al - 1 = (n - 1) + al := by omega
    rw [h1, Nat.add_div_right _ hal]
    have h2 : n - 1 < ((n - 1) / al + 1) * al :=
      (Nat.div_lt_iff_lt_mul hal).1 (Nat.lt_succ_self _)
    omega

theorem ewSub_window_eq (x : List α) (m : ℕ) (hm : 1 ≤ m) :
    ewSub ((prefixSums x).drop m) (sliceTo (prefixSums x) (-(m : ℤ)))
      = some ((List.range (x.length + 1 - m)).map fun k => winAgg x m k) := by
  have hneg : (-(m : ℤ)) < 0 := by
    have : (0 : ℤ) < m := by exact_mod_cast hm
    omega
  have hslice : sliceTo (prefixSums x) (-(m : ℤ))
      = (prefixSums x).take (x.length + 1 - m) := by
    unfold sliceTo
    rw [if_pos hneg, prefixSums_length]
    congr 1
    omega
  rw [hslice]
  unfold ewSub
  rw [if_pos (by simp [prefixSums_length])]
  congr 1
  apply List.ext_getElem
  · simp [prefixSums_length]
  · intro k h1 h2
    have hk : k < x.length + 1 - m := by
      simp [prefixSums_length] at h1
      omega
    simp only [List.getElem_zipWith, List.getElem_drop, List.getElem_take,
      List.getElem_map, List.getElem_range]
    rw [prefixSums_getElem x (m + k) (by rw [prefixSums_length]; omega),
      prefixSums_getElem x k (by rw [prefixSums_length]; omega)]
    unfold winAgg
    rw [Nat.add_comm m k]

theorem corrSlice_eq (E iS : List α) (n m : ℕ) (h2 : 2 ≤ m) (hmn : m ≤ n + 1) :
    sliceTo (xcorr E iS n) (1 - (m : ℤ))
      = (List.range (n + 1 - m)).map fun k => xcorrEntry E iS n k := by
  have hneg : (1 - (m : ℤ)) < 0 := by
    have : (2 : ℤ) ≤ m := by exact_mod_cast h2
    omega
  unfold sliceTo xcorr
  rw [if_pos hneg, ← List.map_take, List.take_range]
  congr 2
  simp only [List.length_map, List.length_range]
  omega

theorem zipWith_map_range (r : ℕ) (h : α → α → α) (f g : ℕ → α) :
    List.zipWith h ((List.range r).map f) ((List.range r).map g)
      = (List.range r).map fun k => h (f k) (g k) := by
  rw [List.zipWith_map, List.zipWith_same]

theorem ewAdd_map_range (r : ℕ) (f g : ℕ → α) :
    ewAdd ((List.range r).map f) ((List.range r).map g)
      = some ((List.range r).map fun k => f k + g k) := by
  unfold ewAdd
  rw [if_pos (by simp), zipWith_map_range]

theorem ewDiv_map_range (r : ℕ) (f g : ℕ → α) :
    ewDiv ((List.range r).map f) ((List.range r).map g)
      = some ((List.range r).map fun k => f k / g k) := by
  unfold ewDiv
  rw [if_pos (by simp), zipWith_map_range]

theorem sliceTo_map_range (r t : ℕ) (f : ℕ → α) (h : t ≤ r) :
    sliceTo ((List.range r).map f) ((t : ℕ) : ℤ) = (List.range t).map f := by
  unfold sliceTo
  rw [if_neg (by omega), ← List.map_take, List.take_range]
  congr 2
  omega

theorem fftSdist_eq (Q S : List α) (al K : ℕ) (h2 : 2 ≤ Q.length)
    (hmn : Q.length ≤ S.length) (hal : 0 < al) :
    fftSdist Q S al K
      = some ((List.range (S.length + 1 - Q.length)).map fun k =>
          sdistFftEntry Q S (alignUp S.length al) k) := by
  have hSn : S.length ≤ alignUp S.length al := le_alignUp _ _ hal
  have hnpos : 0 < alignUp S.length al := by omega
  have hxsq : ((padTo S (alignUp S.length al)).map fun v => v * v) ≠ [] := by
    apply List.ne_nil_of_length_pos
    simp [padTo_length, hnpos]
  have hlen : ((padTo S (alignUp S.length al)).map fun v => v * v).length
      = alignUp S.length al := by
    simp [padTo_length]
  simp only [fftSdist]
  rw [cumsum_eq _ K (Or.inl hxsq), Option.some_bind,
    ewSub_window_eq _ Q.length (by omega), Option.some_bind, hlen,
    corrSlice_eq _ _ (alignUp S.length al) Q.length h2 (by omega), List.map_map]
  have hcast : ((S.length : ℤ) - (Q.length : ℤ) + 1)
      = ((S.length + 1 - Q.length : ℕ) : ℤ) := by omega
  rw [ewAdd_map_range, Option.map_some', hcast,
    sliceTo_map_range _ _ _ (by omega)]
  rfl

theorem fftMdist_eq (Q S : List α) (al K : ℕ) (h2 : 2 ≤ Q.length)
    (hmn : Q.length ≤ S.length) (hal : 0 < al) :
    fftMdist Q S al K
      = some ((List.range (S.length + 1 - Q.length)).map fun k =>
          mdistFftEntry Q S (alignUp S.length al) k) := by
  have hSn : S.length ≤ alignUp S.length al := le_alignUp _ _ hal
  have hnpos : 0 < alignUp S.length al := by omega
  have hiS : padTo S (alignUp S.length al) ≠ [] := by
    apply List.ne_nil_of_length_pos
    simp [padTo_length, hnpos]
  have hxsq : ((padTo S (alignUp S.length al)).map fun v => v * v) ≠ [] := by
    apply List.ne_nil_of_length_pos
    simp [padTo_length, hnpos]
  have hlen : ((padTo S (alignUp S.length al)).map fun v => v * v).length
      = alignUp S.length al := by
    simp [padTo_length]
  have hlen2 : (padTo S (alignUp S.length al)).length = alignUp S.length al :=
    padTo_length S _
  simp only [fftMdist]
  rw [cumsum_eq _ K (Or.inl hiS), Option.some_bind,
    cumsum_eq _ K (Or.inl hxsq), Option.some_bind,
    ewSub_window_eq _ Q.length (by omega), Option.some_bind,
    ewSub_window_eq _ Q.length (by omega), Option.some_bind,
    hlen, hlen2, zipWith_map_range,
    corrSlice_eq _ _ (alignUp S.length al) Q.length h2 (by omega),
    List.map_map]
  have hcast : ((S.length : ℤ) - (Q.length : ℤ) + 1)
      = ((S.length + 1 - Q.length : ℕ) : ℤ) := by omega
  rw [ewAdd_map_range, Option.map_some', hcast,
    sliceTo_map_range _ _ _ (by omega)]
  rfl

theorem fftZdist_eq (Q S : List ℝ) (ε : ℝ) (al K : ℕ) (hε : 0 < ε)
    (h2 : 2 ≤ Q.length) (hmn : Q.length ≤ S.length) (hal : 0 < al) :
    fftZdist Q S ε al K
      = some ((List.range (S.length + 1 - Q.length)).map fun k =>
          zdistFftEntry Q S ε (alignUp S.length al) k) := by
  have hSn : S.length ≤ alignUp S.length al := le_alignUp _ _ hal
  have hnpos : 0 < alignUp S.length al := by omega
  have hiS : padTo S (alignUp S.length al) ≠ [] := by
    apply List.ne_nil_of_length_pos
    simp [padTo_length, hnpos]
  have hxsq : ((padTo S (alignUp S.length al)).map fun v => v * v) ≠ [] := by
    apply List.ne_nil_of_length_pos
    simp [padTo_length, hnpos]
  have hlen : ((padTo S (alignUp S.length al)).map fun v => v * v).length
      = alignUp S.length al := by
    simp [padTo_length]
  have hlen2 : (padTo S (alignUp S.length al)).length = alignUp S.length al :=
    padTo_length S _
  simp only [fftZdist]
  rw [if_pos hε]
  rw [cumsum_eq _ K (Or.inl hiS), Option.some_bind,
    cumsum_eq _ K (Or.inl hxsq), Option.some_bind,
    ewSub_window_eq _ Q.length (by omega), Option.some_bind,
    ewSub_window_eq _ Q.length (by omega), Option.some_bind,
    hlen, hlen2, zipWith_map_range,
    corrSlice_eq _ _ (alignUp S.length al) Q.length h2 (by omega),
    ewDiv_map_range, Option.some_bind, zipWith_map_range]
  have hcast : ((S.length : ℤ) - (Q.length : ℤ) + 1)
      = ((S.length + 1 - Q.length : ℕ) : ℤ) := by omega
  rw [hcast, sliceTo_map_range _ _ _ (by omega)]
  rfl

/-! ### Entry-level and normalization lemmas -/

theorem getD_map_sq (x : List α) (i : ℕ) (h : i < x.length) :
    (x.map fun v => v * v).getD i 0 = x.getD i 0 * x.getD i 0 := by
  rw [List.getD_eq_getElem _ 0 (by simpa using h), List.getElem_map,
    List.getD_eq_getElem x 0 h]

theorem getD_map_sub_const (x : List α) (c : α) (i : ℕ) (h : i < x.length) :
    (x.map fun v => v - c).getD i 0 = x.getD i 0 - c := by
  rw [List.getD_eq_getElem _ 0 (by simpa using h), List.getElem_map,
    List.getD_eq_getElem x 0 h]

theorem sumSq_eq (x : List α) :
    sumSq x = ∑ i ∈ Finset.range x.length, x.getD i 0 * x.getD i 0 := by
  unfold sumSq
  rw [sum_eq_sum_getD, List.length_map]
  exact Finset.sum_congr rfl fun i hi => getD_map_sq x i (Finset.mem_range.1 hi)

theorem winAgg_padTo_eq (S : List α) (n m k : ℕ)
    (hk : k + m ≤ S.length) (hS : S.length ≤ n) :
    winAgg (padTo S n) m k = ∑ i ∈ Finset.range m, S.getD (k + i) 0 := by
  rw [winAgg_eq_sum _ m k (by rw [padTo_length]; omega)]
  exact Finset.sum_congr rfl fun i hi =>
    padTo_getD_lt S n (k + i) (by have := Finset.mem_range.1 hi; omega)
      (by have := Finset.mem_range.1 hi; omega)

theorem winAgg_padTo_sq_eq (S : List α) (n m k : ℕ)
    (hk : k + m ≤ S.length) (hS : S.length ≤ n) :
    winAgg ((padTo S n).map fun v => v * v) m k
      = ∑ i ∈ Finset.range m, S.getD (k + i) 0 * S.getD (k + i) 0 := by
  rw [winAgg_eq_sum _ m k (by simp [padTo_length]; omega)]
  apply Finset.sum_congr rfl
  intro i hi
  have hi' := Finset.mem_range.1 hi
  rw [getD_map_sq _ _ (by rw [padTo_length]; omega),
    padTo_getD_lt S n (k + i) (by omega) (by omega)]

theorem mnorm_length (x : List α) : (mnorm x).length = x.length := by
  simp [mnorm]

theorem mnorm_getD (x : List α) (i : ℕ) (h : i < x.length) :
    (mnorm x).getD i 0 = x.getD i 0 - listMean x :=
  getD_map_sub_const x _ i h

theorem znorm_length (x : List ℝ) (ε : ℝ) : (znorm x ε).length = x.length := by
  simp [znorm]

theorem getD_map_sub_div (x : List ℝ) (c d : ℝ) (i : ℕ) (h : i < x.length) :
    (x.map fun v => (v - c) / d).getD i 0 = (x.getD i 0 - c) / d := by
  rw [List.getD_eq_getElem _ 0 (by simpa using h), List.getElem_map,
    List.getD_eq_getElem x 0 h]

theorem znorm_getD (x : List ℝ) (ε : ℝ) (i : ℕ) (h : i < x.length) :
    (znorm x ε).getD i 0 = (x.getD i 0 - listMean x) / max (popStd x) ε :=
  getD_map_sub_div x _ _ i h

theorem sum_sub_mean (x : List α) (h : x ≠ []) :
    ∑ i ∈ Finset.range x.length, (x.getD i 0 - listMean x) = 0 := by
  have hL : x.length ≠ 0 := by simpa [List.length_eq_zero] using h
  have hLa : (x.length : α) ≠ 0 := Nat.cast_ne_zero.2 hL
  rw [Finset.sum_sub_distrib, Finset.sum_const, Finset.card_range,
    ← sum_eq_sum_getD, nsmul_eq_mul]
  unfold listMean
  field_simp

theorem sum_sq_sub_mean (x : List α) (h : x ≠ []) :
    ∑ i ∈ Finset.range x.length, (x.getD i 0 - listMean x) ^ 2
      = x.length * popVar x := by
  have hL : x.length ≠ 0 := by simpa [List.length_eq_zero] using h
  have hLa : (x.length : α) ≠ 0 := Nat.cast_ne_zero.2 hL
  have h1 : (x.map fun v => (v - listMean x) ^ 2).sum
      = ∑ i ∈ Finset.range x.length, (x.getD i 0 - listMean x) ^ 2 := by
    rw [sum_eq_sum_getD, List.length_map]
    apply Finset.sum_congr rfl
    intro i hi
    have hi' := Finset.mem_range.1 hi
    rw [List.getD_eq_getElem _ 0 (by simpa using hi'), List.getElem_map,
      List.getD_eq_getElem x 0 hi']
  unfold popVar
  rw [h1]
  field_simp

theorem popVar_nonneg (x : List α) : 0 ≤ popVar x := by
  unfold popVar
  apply div_nonneg _ (by positivity)
  apply List.sum_nonneg
  intro v hv
  rcases List.mem_map.1 hv with ⟨a, _, rfl⟩
  positivity

theorem popStd_sq (x : List ℝ) : popStd x ^ 2 = popVar x :=
  Real.sq_sqrt (popVar_nonneg x)

theorem popStd_nonneg (x : List ℝ) : 0 ≤ popStd x := Real.sqrt_nonneg _

theorem znorm_sum (x : List ℝ) (ε : ℝ) (h : x ≠ []) :
    ∑ i ∈ Finset.range x.length, (znorm x ε).getD i 0 = 0 := by
  have h1 : ∀ i ∈ Finset.range x.length,
      (znorm x ε).getD i 0 = (x.getD i 0 - listMean x) / max (popStd x) ε :=
    fun i hi => znorm_getD x ε i (Finset.mem_range.1 hi)
  rw [Finset.sum_congr rfl h1, ← Finset.sum_div, sum_sub_mean x h, zero_div]

theorem znorm_sumSq (x : List ℝ) (ε : ℝ) (h : x ≠ []) :
    ∑ i ∈ Finset.range x.length, (znorm x ε).getD i 0 ^ 2
      = x.length * popVar x / max (popStd x) ε ^ 2 := by
  have h1 : ∀ i ∈ Finset.range x.length,
      (znorm x ε).getD i 0 ^ 2
        = (x.getD i 0 - listMean x) ^ 2 / max (popStd x) ε ^ 2 := by
    intro i hi
    rw [znorm_getD x ε i (Finset.mem_range.1 hi), div_pow]
  rw [Finset.sum_congr rfl h1, ← Finset.sum_div, sum_sq_sub_mean x h]

theorem znorm_sumSq_of_le (x : List ℝ) (ε : ℝ) (h : x ≠ []) (hε : 0 < ε)
    (hσ : ε ≤ popStd x) :
    ∑ i ∈ Finset.range x.length, (znorm x ε).getD i 0 ^ 2 = x.length := by
  have hσ0 : (0 : ℝ) < popStd x := lt_of_lt_of_le hε hσ
  have hvar : 0 < popVar x := by rw [← popStd_sq]; positivity
  rw [znorm_sumSq x ε h, max_eq_left hσ, popStd_sq, mul_div_assoc,
    div_self hvar.ne', mul_one]

theorem znorm_sumSq_le (x : List ℝ) (ε : ℝ) (h : x ≠ []) (hε : 0 < ε) :
    ∑ i ∈ Finset.range x.length, (znorm x ε).getD i 0 ^ 2 ≤ x.length := by
  rw [znorm_sumSq x ε h]
  have hmax : 0 < max (popStd x) ε := lt_max_of_lt_right hε
  rw [div_le_iff (by positivity)]
  have h2 : popVar x ≤ max (popStd x) ε ^ 2 := by
    calc popVar x = popStd x ^ 2 := (popStd_sq x).symm
    _ ≤ max (popStd x) ε ^ 2 := by
        apply pow_le_pow_left (popStd_nonneg x) (le_max_left _ _)
  calc (x.length : ℝ) * popVar x ≤ (x.length : ℝ) * max (popStd x) ε ^ 2 := by
        apply mul_le_mul_of_nonneg_left h2 (by positivity)
  _ = _ := by ring

theorem sum_sub_sq_expand (r : ℕ) (f g : ℕ → α) :
    ∑ i ∈ Finset.range r, (f i - g i) ^ 2
      = ∑ i ∈ Finset.range r, f i ^ 2
        - 2 * ∑ i ∈ Finset.range r, f i * g i
        + ∑ i ∈ Finset.range r, g i ^ 2 := by
  have h : ∀ i, (f i - g i) ^ 2 = f i ^ 2 - 2 * (f i * g i) + g i ^ 2 :=
    fun i => by ring
  simp only [h]
  rw [Finset.sum_add_distrib, Finset.sum_sub_distrib, ← Finset.mul_sum]

theorem window_var_identity (m : ℕ) (hm : 0 < m) (g : ℕ → α) :
    ∑ i ∈ Finset.range m, (g i - (∑ j ∈ Finset.range m, g j) / m) ^ 2
      = ∑ i ∈ Finset.range m, g i * g i
        - (∑ j ∈ Finset.range m, g j) * (∑ j ∈ Finset.range m, g j) / m := by
  have hma : (m : α) ≠ 0 := Nat.cast_ne_zero.2 (by omega)
  rw [sum_sub_sq_expand]
  have h1 : ∑ i ∈ Finset.range m, g i * ((∑ j ∈ Finset.range m, g j) / m)
      = (∑ j ∈ Finset.range m, g j) * (∑ j ∈ Finset.range m, g j) / m := by
    rw [← Finset.sum_mul]
    ring
  have h2 : ∑ _i ∈ Finset.range m, ((∑ j ∈ Finset.range m, g j) / m) ^ 2
      = (∑ j ∈ Finset.range m, g j) ^ 2 / m := by
    rw [Finset.sum_const, Finset.card_range, nsmul_eq_mul, div_pow]
    field_simp
    ring
  rw [h1, h2]
  have h3 : ∑ i ∈ Finset.range m, g i ^ 2
      = ∑ i ∈ Finset.range m, g i * g i := by
    exact Finset.sum_congr rfl fun i _ => sq (g i) ▸ by ring
  rw [h3]
  field_simp
  ring

/-! ### Equivalence of the two execution paths, entry by entry -/

theorem sum_mul_self (r : ℕ) (f : ℕ → α) :
    ∑ i ∈ Finset.range r, f i * f i = ∑ i ∈ Finset.range r, f i ^ 2 :=
  Finset.sum_congr rfl fun i _ => by ring

theorem sdistKernelOut_eq (Q S : List α) (k : ℕ) :
    sdistKernelOut Q S k
      = ∑ i ∈ Finset.range Q.length, (Q.getD i 0 - S.getD (k + i) 0) ^ 2 := by
  simp only [sdistKernelOut, warpSum_eq]
  exact Finset.sum_congr rfl fun i _ => by ring

theorem sdist_entry_equiv (Q S : List α) (n k : ℕ)
    (hk : k + Q.length ≤ S.length) (hS : S.length ≤ n) :
    sdistFftEntry Q S n k = sdistKernelOut Q S k := by
  unfold sdistFftEntry
  rw [sdistKernelOut_eq, sum_sub_sq_expand, sumSq_eq,
    xcorrEntry_eq Q S n k (by omega) hS hk,
    winAgg_padTo_sq_eq S n Q.length k hk hS, sum_mul_self, sum_mul_self]

theorem mean_adjusted_identity (m : ℕ) (hm : 0 < m) (f s : ℕ → α)
    (hf : ∑ i ∈ Finset.range m, f i = 0) :
    ∑ i ∈ Finset.range m, (f i - s i + (∑ j ∈ Finset.range m, s j) / m) ^ 2
      = ∑ i ∈ Finset.range m, f i ^ 2
        - 2 * ∑ i ∈ Finset.range m, f i * s i
        + (∑ i ∈ Finset.range m, s i * s i
            - (∑ j ∈ Finset.range m, s j) * (∑ j ∈ Finset.range m, s j) / m) := by
  have h1 : ∀ i, (f i - s i + (∑ j ∈ Finset.range m, s j) / m) ^ 2
      = (f i - (s i - (∑ j ∈ Finset.range m, s j) / m)) ^ 2 := fun i => by ring
  simp only [h1]
  rw [sum_sub_sq_expand m f (fun i => s i - (∑ j ∈ Finset.range m, s j) / m),
    window_var_identity m hm s]
  have h2 : ∑ i ∈ Finset.range m, f i * (s i - (∑ j ∈ Finset.range m, s j) / m)
      = ∑ i ∈ Finset.range m, f i * s i := by
    have h3 : ∀ i ∈ Finset.range m,
        f i * (s i - (∑ j ∈ Finset.range m, s j) / m)
          = f i * s i - ((∑ j ∈ Finset.range m, s j) / m) * f i := fun i _ => by ring
    rw [Finset.sum_congr rfl h3, Finset.sum_sub_distrib, ← Finset.mul_sum, hf,
      mul_zero, sub_zero]
  rw [h2]

theorem mdist_entry_equiv (Q S : List α) (n k : ℕ) (hm : 1 ≤ Q.length)
    (hk : k + Q.length ≤ S.length) (hS : S.length ≤ n) :
    mdistFftEntry Q S n k = mdistKernelOut (mnorm Q) S k := by
  have hmn : (mnorm Q).length = Q.length := mnorm_length Q
  have hQne : Q ≠ [] := by
    intro hc
    rw [hc] at hm
    simp at hm
  have e1 : sumSq (mnorm Q)
      = ∑ i ∈ Finset.range Q.length, (Q.getD i 0 - listMean Q) ^ 2 := by
    rw [sumSq_eq, hmn]
    exact Finset.sum_congr rfl fun i hi => by
      rw [mnorm_getD Q i (Finset.mem_range.1 hi)]; ring
  have e2 : xcorrEntry (padTo (mnorm Q) n) (padTo S n) n k
      = ∑ i ∈ Finset.range Q.length,
          (Q.getD i 0 - listMean Q) * S.getD (k + i) 0 := by
    rw [xcorrEntry_eq (mnorm Q) S n k (by rw [hmn]; omega) hS (by rw [hmn]; omega),
      hmn]
    exact Finset.sum_congr rfl fun i hi => by
      rw [mnorm_getD Q i (Finset.mem_range.1 hi)]
  have e5 : ∑ i ∈ Finset.range Q.length, (Q.getD i 0 - listMean Q) = 0 :=
    sum_sub_mean Q hQne
  have e6 : mdistKernelOut (mnorm Q) S k
      = ∑ i ∈ Finset.range Q.length,
          ((Q.getD i 0 - listMean Q) - S.getD (k + i) 0
            + (∑ j ∈ Finset.range Q.length, S.getD (k + j) 0) / Q.length) ^ 2 := by
    simp only [mdistKernelOut, warpSum_eq, hmn]
    exact Finset.sum_congr rfl fun i hi => by
      rw [mnorm_getD Q i (Finset.mem_range.1 hi)]; ring
  simp only [mdistFftEntry]
  rw [e1, e2, e6, winAgg_padTo_eq S n Q.length k hk hS,
    winAgg_padTo_sq_eq S n Q.length k hk hS,
    mean_adjusted_identity Q.length (by omega)
      (fun i => Q.getD i 0 - listMean Q) (fun i => S.getD (k + i) 0) e5]

theorem zdist_entry_equiv (Q S : List ℝ) (ε : ℝ) (n k : ℕ)
    (hε : 0 < ε) (hσ : ε ≤ popStd Q) (hm : 1 ≤ Q.length)
    (hk : k + Q.length ≤ S.length) (hS : S.length ≤ n) :
    zdistFftEntry Q S ε n k = zdistKernelOut (znorm Q ε) S ε k := by
  have hqn : (znorm Q ε).length = Q.length := znorm_length Q ε
  have hQne : Q ≠ [] := by
    intro hc
    rw [hc] at hm
    simp at hm
  have hma : (Q.length : ℝ) ≠ 0 := Nat.cast_ne_zero.2 (by omega)
  have hmpos : (0 : ℝ) < Q.length := by
    have : (1 : ℝ) ≤ Q.length := by exact_mod_cast hm
    linarith
  have eq0 : ∑ i ∈ Finset.range Q.length, (znorm Q ε).getD i 0 = 0 :=
    znorm_sum Q ε hQne
  have eq2 : ∑ i ∈ Finset.range Q.length, (znorm Q ε).getD i 0 ^ 2 = Q.length :=
    znorm_sumSq_of_le Q ε hQne hε hσ
  have eR : xcorrEntry (padTo (znorm Q ε) n) (padTo S n) n k
      = ∑ i ∈ Finset.range Q.length, (znorm Q ε).getD i 0 * S.getD (k + i) 0 := by
    rw [xcorrEntry_eq (znorm Q ε) S n k (by rw [hqn]; omega) hS (by rw [hqn]; omega),
      hqn]
  have hvar := window_var_identity (α := ℝ) Q.length (by omega)
    (fun i => S.getD (k + i) 0)
  simp only [zdistFftEntry]
  rw [winAgg_padTo_eq S n Q.length k hk hS, winAgg_padTo_sq_eq S n Q.length k hk hS,
    eR]
  simp only [zdistKernelOut, warpSum_eq, hqn]
  set T := ∑ j ∈ Finset.range Q.length, S.getD (k + j) 0 with hTdef
  set U := ∑ j ∈ Finset.range Q.length, S.getD (k + j) 0 * S.getD (k + j) 0
    with hUdef
  have hform : U / (Q.length : ℝ) - T / (Q.length : ℝ) * (T / (Q.length : ℝ))
      = U / (Q.length : ℝ) - (T / (Q.length : ℝ)) ^ 2 := by ring
  rw [hform]
  set wv := U / (Q.length : ℝ) - (T / (Q.length : ℝ)) ^ 2 with hwvdef
  have hMwv : (Q.length : ℝ) * wv = U - T * T / (Q.length : ℝ) := by
    rw [hwvdef]
    field_simp
    ring
  have hsumvar : ∑ i ∈ Finset.range Q.length,
      (S.getD (k + i) 0 - T / (Q.length : ℝ)) ^ 2 = (Q.length : ℝ) * wv := by
    rw [hMwv]
    exact hvar
  have hwv0 : 0 ≤ wv := by
    have h1 : 0 ≤ ∑ i ∈ Finset.range Q.length,
        (S.getD (k + i) 0 - T / (Q.length : ℝ)) ^ 2 :=
      Finset.sum_nonneg fun i _ => sq_nonneg _
    by_contra hneg
    push_neg at hneg
    have h2 : (Q.length : ℝ) * wv < 0 := mul_neg_of_pos_of_neg hmpos hneg
    rw [← hsumvar] at h2
    linarith
  rcases hwv0.lt_or_eq with hpos | heq0
  · -- nondegenerate window: both paths use sigma = sqrt(variance)
    have hz : 0 < Real.sqrt wv := Real.sqrt_pos.2 hpos
    rw [max_eq_left hwv0, if_pos hpos]
    simp only [zWhereEntry]
    rw [if_pos hz]
    rw [sum_mul_self Q.length
      (fun i => (znorm Q ε).getD i 0
        - (S.getD (k + i) 0 - T / (Q.length : ℝ)) / Real.sqrt wv)]
    rw [sum_sub_sq_expand Q.length (fun i => (znorm Q ε).getD i 0)
      (fun i => (S.getD (k + i) 0 - T / (Q.length : ℝ)) / Real.sqrt wv)]
    have hmid : ∑ i ∈ Finset.range Q.length,
        (znorm Q ε).getD i 0
          * ((S.getD (k + i) 0 - T / (Q.length : ℝ)) / Real.sqrt wv)
        = (∑ i ∈ Finset.range Q.length,
            (znorm Q ε).getD i 0 * S.getD (k + i) 0) / Real.sqrt wv := by
      have h4 : ∀ i ∈ Finset.range Q.length,
          (znorm Q ε).getD i 0
            * ((S.getD (k + i) 0 - T / (Q.length : ℝ)) / Real.sqrt wv)
          = (znorm Q ε).getD i 0 * S.getD (k + i) 0 / Real.sqrt wv
            - T / (Q.length : ℝ) / Real.sqrt wv * (znorm Q ε).getD i 0 :=
        fun i _ => by ring
      rw [Finset.sum_congr rfl h4, Finset.sum_sub_distrib, ← Finset.sum_div,
        ← Finset.mul_sum, eq0, mul_zero, sub_zero]
    have hthird : ∑ i ∈ Finset.range Q.length,
        ((S.getD (k + i) 0 - T / (Q.length : ℝ)) / Real.sqrt wv) ^ 2
        = (Q.length : ℝ) := by
      have h5 : ∀ i ∈ Finset.range Q.length,
          ((S.getD (k + i) 0 - T / (Q.length : ℝ)) / Real.sqrt wv) ^ 2
            = (S.getD (k + i) 0 - T / (Q.length : ℝ)) ^ 2 / wv := fun i _ => by
        rw [div_pow, Real.sq_sqrt hwv0]
      rw [Finset.sum_congr rfl h5, ← Finset.sum_div, hsumvar,
        mul_div_assoc, div_self hpos.ne', mul_one]
    rw [hmid, hthird, eq2]
    ring
  · -- degenerate (constant) window: fft path yields m, kernel reduces to sum of q^2
    rw [max_eq_left hwv0, ← heq0, Real.sqrt_zero]
    simp only [zWhereEntry]
    rw [if_neg (lt_irrefl (0 : ℝ)), if_neg (lt_irrefl (0 : ℝ))]
    have hsum0 : ∑ i ∈ Finset.range Q.length,
        (S.getD (k + i) 0 - T / (Q.length : ℝ)) ^ 2 = 0 := by
      rw [hsumvar, ← heq0, mul_zero]
    have hall : ∀ i ∈ Finset.range Q.length,
        S.getD (k + i) 0 - T / (Q.length : ℝ) = 0 := by
      intro i hi
      have h6 := (Finset.sum_eq_zero_iff_of_nonneg
        (fun j (_ : j ∈ Finset.range Q.length) => sq_nonneg
          (S.getD (k + j) 0 - T / (Q.length : ℝ)))).1 hsum0 i hi
      exact pow_eq_zero_iff (two_ne_zero) |>.1 h6
    have h7 : ∀ i ∈ Finset.range Q.length,
        ((znorm Q ε).getD i 0 - (S.getD (k + i) 0 - T / (Q.length : ℝ)) / ε)
          * ((znorm Q ε).getD i 0 - (S.getD (k + i) 0 - T / (Q.length : ℝ)) / ε)
        = (znorm Q ε).getD i 0 ^ 2 := by
      intro i hi
      rw [hall i hi, zero_div, sub_zero]
      ring
    rw [Finset.sum_congr rfl h7, eq2]

/-! ### Range bounds for the Z-normalized distance -/

theorem zdistFftEntry_bounds (Q S : List ℝ) (ε : ℝ) (n k : ℕ)
    (hε : 0 < ε) (hm : 1 ≤ Q.length) (hk : k + Q.length ≤ S.length)
    (hS : S.length ≤ n) :
    0 ≤ zdistFftEntry Q S ε n k ∧ zdistFftEntry Q S ε n k ≤ 4 * Q.length := by
  have hqn : (znorm Q ε).length = Q.length := znorm_length Q ε
  have hQne : Q ≠ [] := by
    intro hc
    rw [hc] at hm
    simp at hm
  have hma : (Q.length : ℝ) ≠ 0 := Nat.cast_ne_zero.2 (by omega)
  have hmpos : (0 : ℝ) < Q.length := by
    have : (1 : ℝ) ≤ Q.length := by exact_mod_cast hm
    linarith
  have eq0 : ∑ i ∈ Finset.range Q.length, (znorm Q ε).getD i 0 = 0 :=
    znorm_sum Q ε hQne
  have eq2 : ∑ i ∈ Finset.range Q.length, (znorm Q ε).getD i 0 ^ 2 ≤ Q.length :=
    znorm_sumSq_le Q ε hQne hε
  have eR : xcorrEntry (padTo (znorm Q ε) n) (padTo S n) n k
      = ∑ i ∈ Finset.range Q.length, (znorm Q ε).getD i 0 * S.getD (k + i) 0 := by
    rw [xcorrEntry_eq (znorm Q ε) S n k (by rw [hqn]; omega) hS (by rw [hqn]; omega),
      hqn]
  have hvar := window_var_identity (α := ℝ) Q.length (by omega)
    (fun i => S.getD (k + i) 0)
  simp only [zdistFftEntry]
  rw [winAgg_padTo_eq S n Q.length k hk hS, winAgg_padTo_sq_eq S n Q.length k hk hS,
    eR]
  set T := ∑ j ∈ Finset.range Q.length, S.getD (k + j) 0 with hTdef
  set U := ∑ j ∈ Finset.range Q.length, S.getD (k + j) 0 * S.getD (k + j) 0
    with hUdef
  set wv := U / (Q.length : ℝ) - (T / (Q.length : ℝ)) ^ 2 with hwvdef
  have hMwv : (Q.length : ℝ) * wv = U - T * T / (Q.length : ℝ) := by
    rw [hwvdef]
    field_simp
    ring
  have hsumvar : ∑ i ∈ Finset.range Q.length,
      (S.getD (k + i) 0 - T / (Q.length : ℝ)) ^ 2 = (Q.length : ℝ) * wv := by
    rw [hMwv]
    exact hvar
  have hwv0 : 0 ≤ wv := by
    have h1 : 0 ≤ ∑ i ∈ Finset.range Q.length,
        (S.getD (k + i) 0 - T / (Q.length : ℝ)) ^ 2 :=
      Finset.sum_nonneg fun i _ => sq_nonneg _
    by_contra hneg
    push_neg at hneg
    have h2 : (Q.length : ℝ) * wv < 0 := mul_neg_of_pos_of_neg hmpos hneg
    rw [← hsumvar] at h2
    linarith
  rw [max_eq_left hwv0]
  rcases hwv0.lt_or_eq with hpos | heq0
  · have hz : 0 < Real.sqrt wv := Real.sqrt_pos.2 hpos
    simp only [zWhereEntry]
    rw [if_pos hz]
    -- Cauchy-Schwarz bound on the correlation term
    have hRmean : ∑ i ∈ Finset.range Q.length,
        (znorm Q ε).getD i 0 * S.getD (k + i) 0
        = ∑ i ∈ Finset.range Q.length,
            (znorm Q ε).getD i 0 * (S.getD (k + i) 0 - T / (Q.length : ℝ)) := by
      have h4 : ∀ i ∈ Finset.range Q.length,
          (znorm Q ε).getD i 0 * (S.getD (k + i) 0 - T / (Q.length : ℝ))
            = (znorm Q ε).getD i 0 * S.getD (k + i) 0
              - T / (Q.length : ℝ) * (znorm Q ε).getD i 0 := fun i _ => by ring
      rw [Finset.sum_congr rfl h4, Finset.sum_sub_distrib, ← Finset.mul_sum, eq0,
        mul_zero, sub_zero]
    have hcs := Finset.sum_mul_sq_le_sq_mul_sq (Finset.range Q.length)
      (fun i => (znorm Q ε).getD i 0)
      (fun i => S.getD (k + i) 0 - T / (Q.length : ℝ))
    have hsq2 : ∑ i ∈ Finset.range Q.length,
        (S.getD (k + i) 0 - T / (Q.length : ℝ)) ^ 2 ≤ (Q.length : ℝ) * wv :=
      le_of_eq hsumvar
    have hcs2 : (∑ i ∈ Finset.range Q.length,
        (znorm Q ε).getD i 0 * S.getD (k + i) 0) ^ 2
        ≤ ((Q.length : ℝ) * Real.sqrt wv) ^ 2 := by
      rw [hRmean]
      calc (∑ i ∈ Finset.range Q.length, (znorm Q ε).getD i 0
              * (S.getD (k + i) 0 - T / (Q.length : ℝ))) ^ 2
          ≤ (∑ i ∈ Finset.range Q.length, (znorm Q ε).getD i 0 ^ 2)
            * ∑ i ∈ Finset.range Q.length,
                (S.getD (k + i) 0 - T / (Q.length : ℝ)) ^ 2 := hcs
        _ ≤ (Q.length : ℝ) * ((Q.length : ℝ) * wv) := by
            apply mul_le_mul eq2 hsq2 (Finset.sum_nonneg fun i _ => sq_nonneg _)
              (by positivity)
        _ = ((Q.length : ℝ) * Real.sqrt wv) ^ 2 := by
            rw [mul_pow, Real.sq_sqrt hwv0]
            ring
    have habs := abs_le_of_sq_le_sq' hcs2 (by positivity)
    have hub : (∑ i ∈ Finset.range Q.length,
        (znorm Q ε).getD i 0 * S.getD (k + i) 0) / Real.sqrt wv ≤ Q.length := by
      rw [div_le_iff hz]
      exact habs.2.trans (le_of_eq (by ring))
    have hlb : -(Q.length : ℝ) ≤ (∑ i ∈ Finset.range Q.length,
        (znorm Q ε).getD i 0 * S.getD (k + i) 0) / Real.sqrt wv := by
      rw [le_div_iff hz]
      refine le_trans (le_of_eq (by ring)) habs.1
    constructor
    · linarith
    · linarith
  · simp only [zWhereEntry, ← heq0, Real.sqrt_zero]
    rw [if_neg (lt_irrefl (0 : ℝ))]
    constructor
    · positivity
    · have : (0 : ℝ) ≤ Q.length := by positivity
      linarith

theorem zdistKernelOut_bounds (Q S : List ℝ) (ε : ℝ) (k : ℕ)
    (hε : 0 < ε) (hm : 1 ≤ Q.length) :
    0 ≤ zdistKernelOut (znorm Q ε) S ε k
      ∧ zdistKernelOut (znorm Q ε) S ε k ≤ 4 * Q.length := by
  have hqn : (znorm Q ε).length = Q.length := znorm_length Q ε
  have hQne : Q ≠ [] := by
    intro hc
    rw [hc] at hm
    simp at hm
  have hma : (Q.length : ℝ) ≠ 0 := Nat.cast_ne_zero.2 (by omega)
  have hmpos : (0 : ℝ) < Q.length := by
    have : (1 : ℝ) ≤ Q.length := by exact_mod_cast hm
    linarith
  have eq0 : ∑ i ∈ Finset.range Q.length, (znorm Q ε).getD i 0 = 0 :=
    znorm_sum Q ε hQne
  have eq2 : ∑ i ∈ Finset.range Q.length, (znorm Q ε).getD i 0 ^ 2 ≤ Q.length :=
    znorm_sumSq_le Q ε hQne hε
  have eq2nn : 0 ≤ ∑ i ∈ Finset.range Q.length, (znorm Q ε).getD i 0 ^ 2 :=
    Finset.sum_nonneg fun i _ => sq_nonneg _
  have hvar := window_var_identity (α := ℝ) Q.length (by omega)
    (fun i => S.getD (k + i) 0)
  simp only [zdistKernelOut, warpSum_eq, hqn]
  set T := ∑ j ∈ Finset.range Q.length, S.getD (k + j) 0 with hTdef
  set U := ∑ j ∈ Finset.range Q.length, S.getD (k + j) 0 * S.getD (k + j) 0
    with hUdef
  have hform : U / (Q.length : ℝ) - T / (Q.length : ℝ) * (T / (Q.length : ℝ))
      = U / (Q.length : ℝ) - (T / (Q.length : ℝ)) ^ 2 := by ring
  rw [hform]
  set wv := U / (Q.length : ℝ) - (T / (Q.length : ℝ)) ^ 2 with hwvdef
  have hMwv : (Q.length : ℝ) * wv = U - T * T / (Q.length : ℝ) := by
    rw [hwvdef]
    field_simp
    ring
  have hsumvar : ∑ i ∈ Finset.range Q.length,
      (S.getD (k + i) 0 - T / (Q.length : ℝ)) ^ 2 = (Q.length : ℝ) * wv := by
    rw [hMwv]
    exact hvar
  have hwv0 : 0 ≤ wv := by
    have h1 : 0 ≤ ∑ i ∈ Finset.range Q.length,
        (S.getD (k + i) 0 - T / (Q.length : ℝ)) ^ 2 :=
      Finset.sum_nonneg fun i _ => sq_nonneg _
    by_contra hneg
    push_neg at hneg
    have h2 : (Q.length : ℝ) * wv < 0 := mul_neg_of_pos_of_neg hmpos hneg
    rw [← hsumvar] at h2
    linarith
  constructor
  · exact Finset.sum_nonneg fun i _ => mul_self_nonneg _
  rcases hwv0.lt_or_eq with hpos | heq0
  · have hz : 0 < Real.sqrt wv := Real.sqrt_pos.2 hpos
    rw [if_pos hpos, sum_mul_self Q.length
      (fun i => (znorm Q ε).getD i 0
        - (S.getD (k + i) 0 - T / (Q.length : ℝ)) / Real.sqrt wv),
      sum_sub_sq_expand Q.length (fun i => (znorm Q ε).getD i 0)
        (fun i => (S.getD (k + i) 0 - T / (Q.length : ℝ)) / Real.sqrt wv)]
    have hthird : ∑ i ∈ Finset.range Q.length,
        ((S.getD (k + i) 0 - T / (Q.length : ℝ)) / Real.sqrt wv) ^ 2
        = (Q.length : ℝ) := by
      have h5 : ∀ i ∈ Finset.range Q.length,
          ((S.getD (k + i) 0 - T / (Q.length : ℝ)) / Real.sqrt wv) ^ 2
            = (S.getD (k + i) 0 - T / (Q.length : ℝ)) ^ 2 / wv := fun i _ => by
        rw [div_pow, Real.sq_sqrt hwv0]
      rw [Finset.sum_congr rfl h5, ← Finset.sum_div, hsumvar, mul_div_assoc,
        div_self hpos.ne', mul_one]
    have hcs := Finset.sum_mul_sq_le_sq_mul_sq (Finset.range Q.length)
      (fun i => (znorm Q ε).getD i 0)
      (fun i => (S.getD (k + i) 0 - T / (Q.length : ℝ)) / Real.sqrt wv)
    have hcs2 : (∑ i ∈ Finset.range Q.length, (znorm Q ε).getD i 0
        * ((S.getD (k + i) 0 - T / (Q.length : ℝ)) / Real.sqrt wv)) ^ 2
        ≤ ((Q.length : ℝ)) ^ 2 := by
      calc (∑ i ∈ Finset.range Q.length, (znorm Q ε).getD i 0
              * ((S.getD (k + i) 0 - T / (Q.length : ℝ)) / Real.sqrt wv)) ^ 2
          ≤ (∑ i ∈ Finset.range Q.length, (znorm Q ε).getD i 0 ^ 2)
            * ∑ i ∈ Finset.range Q.length,
                ((S.getD (k + i) 0 - T / (Q.length : ℝ)) / Real.sqrt wv) ^ 2 := hcs
        _ ≤ (Q.length : ℝ) * (Q.length : ℝ) := by
            rw [hthird]
            apply mul_le_mul_of_nonneg_right eq2 (le_of_lt hmpos)
        _ = ((Q.length : ℝ)) ^ 2 := by ring
    have habs := abs_le_of_sq_le_sq' hcs2 (le_of_lt hmpos)
    linarith [habs.1, habs.2, eq2]
  · rw [if_neg (by rw [← heq0]; exact lt_irrefl 0)]
    have hsum0 : ∑ i ∈ Finset.range Q.length,
        (S.getD (k + i) 0 - T / (Q.length : ℝ)) ^ 2 = 0 := by
      rw [hsumvar, ← heq0, mul_zero]
    have hall : ∀ i ∈ Finset.range Q.length,
        S.getD (k + i) 0 - T / (Q.length : ℝ) = 0 := by
      intro i hi
      have h6 := (Finset.sum_eq_zero_iff_of_nonneg
        (fun j (_ : j ∈ Finset.range Q.length) => sq_nonneg
          (S.getD (k + j) 0 - T / (Q.length : ℝ)))).1 hsum0 i hi
      exact pow_eq_zero_iff (two_ne_zero) |>.1 h6
    have h7 : ∀ i ∈ Finset.range Q.length,
        ((znorm Q ε).getD i 0 - (S.getD (k + i) 0 - T / (Q.length : ℝ)) / ε)
          * ((znorm Q ε).getD i 0 - (S.getD (k + i) 0 - T / (Q.length : ℝ)) / ε)
        = (znorm Q ε).getD i 0 ^ 2 := by
      intro i hi
      rw [hall i hi, zero_div, sub_zero]
      ring
    rw [Finset.sum_congr rfl h7]
    linarith

/-! ### Constant-window behaviour of the Z-normalized distance -/

theorem zdistFftEntry_const_window (Q S : List ℝ) (ε : ℝ) (n k : ℕ)
    (hm : 1 ≤ Q.length) (hk : k + Q.length ≤ S.length) (hS : S.length ≤ n)
    (hconst : ∀ i, i < Q.length → S.getD (k + i) 0 = S.getD k 0) :
    zdistFftEntry Q S ε n k = Q.length := by
  have hma : (Q.length : ℝ) ≠ 0 := Nat.cast_ne_zero.2 (by omega)
  simp only [zdistFftEntry]
  rw [winAgg_padTo_eq S n Q.length k hk hS, winAgg_padTo_sq_eq S n Q.length k hk hS]
  have hT : ∑ j ∈ Finset.range Q.length, S.getD (k + j) 0
      = (Q.length : ℝ) * S.getD k 0 := by
    rw [Finset.sum_congr rfl fun j hj => hconst j (Finset.mem_range.1 hj),
      Finset.sum_const, Finset.card_range, nsmul_eq_mul]
  have hU : ∑ j ∈ Finset.range Q.length, S.getD (k + j) 0 * S.getD (k + j) 0
      = (Q.length : ℝ) * (S.getD k 0 * S.getD k 0) := by
    have h1 : ∀ j ∈ Finset.range Q.length,
        S.getD (k + j) 0 * S.getD (k + j) 0 = S.getD k 0 * S.getD k 0 :=
      fun j hj => by rw [hconst j (Finset.mem_range.1 hj)]
    rw [Finset.sum_congr rfl h1, Finset.sum_const, Finset.card_range, nsmul_eq_mul]
  rw [hT, hU]
  have hwv : (Q.length : ℝ) * (S.getD k 0 * S.getD k 0) / (Q.length : ℝ)
      - ((Q.length : ℝ) * S.getD k 0 / (Q.length : ℝ)) ^ 2 = 0 := by
    field_simp
    ring
  rw [hwv, max_eq_right le_rfl, Real.sqrt_zero]
  simp [zWhereEntry]

theorem zdistKernelOut_const_window (Q S : List ℝ) (ε : ℝ) (k : ℕ)
    (hε : 0 < ε) (hm : 1 ≤ Q.length)
    (hconst : ∀ i, i < Q.length → S.getD (k + i) 0 = S.getD k 0) :
    zdistKernelOut (znorm Q ε) S ε k
      = Q.length * (popStd Q / max (popStd Q) ε) ^ 2 := by
  have hQne : Q ≠ [] := by
    intro hc
    rw [hc] at hm
    simp at hm
  have hma : (Q.length : ℝ) ≠ 0 := Nat.cast_ne_zero.2 (by omega)
  simp only [zdistKernelOut, warpSum_eq, znorm_length]
  have hT : ∑ j ∈ Finset.range Q.length, S.getD (k + j) 0
      = (Q.length : ℝ) * S.getD k 0 := by
    rw [Finset.sum_congr rfl fun j hj => hconst j (Finset.mem_range.1 hj),
      Finset.sum_const, Finset.card_range, nsmul_eq_mul]
  have hU : ∑ j ∈ Finset.range Q.length, S.getD (k + j) 0 * S.getD (k + j) 0
      = (Q.length : ℝ) * (S.getD k 0 * S.getD k 0) := by
    have h1 : ∀ j ∈ Finset.range Q.length,
        S.getD (k + j) 0 * S.getD (k + j) 0 = S.getD k 0 * S.getD k 0 :=
      fun j hj => by rw [hconst j (Finset.mem_range.1 hj)]
    rw [Finset.sum_congr rfl h1, Finset.sum_const, Finset.card_range, nsmul_eq_mul]
  rw [hT, hU]
  have hmean : (Q.length : ℝ) * S.getD k 0 / (Q.length : ℝ) = S.getD k 0 := by
    field_simp
  rw [hmean]
  have hsig : (Q.length : ℝ) * (S.getD k 0 * S.getD k 0) / (Q.length : ℝ)
      - S.getD k 0 * S.getD k 0 = 0 := by
    field_simp
  rw [hsig, if_neg (lt_irrefl (0 : ℝ))]
  have h7 : ∀ i ∈ Finset.range Q.length,
      ((znorm Q ε).getD i 0 - (S.getD (k + i) 0 - S.getD k 0) / ε)
        * ((znorm Q ε).getD i 0 - (S.getD (k + i) 0 - S.getD k 0) / ε)
      = (znorm Q ε).getD i 0 ^ 2 := by
    intro i hi
    rw [hconst i (Finset.mem_range.1 hi), sub_self, zero_div, sub_zero]
    ring
  rw [Finset.sum_congr rfl h7, znorm_sumSq Q ε hQne, div_pow, popStd_sq]
  ring

/-! ### Variance of the normalized query (epsilon floor) -/

theorem getD_map_pow2 (x : List ℝ) (i : ℕ) (h : i < x.length) :
    (x.map fun v => v ^ 2).getD i 0 = x.getD i 0 ^ 2 := by
  rw [List.getD_eq_getElem _ 0 (by simpa using h), List.getElem_map,
    List.getD_eq_getElem x 0 h]

theorem znorm_listSum (x : List ℝ) (ε : ℝ) (h : x ≠ []) : (znorm x ε).sum = 0 := by
  rw [sum_eq_sum_getD, znorm_length, znorm_sum x ε h]

theorem znorm_popVar (x : List ℝ) (ε : ℝ) (h : x ≠ []) :
    popVar (znorm x ε) = popVar x / max (popStd x) ε ^ 2 := by
  have hL : x.length ≠ 0 := by simpa [List.length_eq_zero] using h
  have hLa : (x.length : ℝ) ≠ 0 := Nat.cast_ne_zero.2 hL
  have hmean : listMean (znorm x ε) = 0 := by
    unfold listMean
    rw [znorm_listSum x ε h, zero_div]
  have h1 : ((znorm x ε).map fun v => v ^ 2).sum
      = ∑ i ∈ Finset.range x.length, (znorm x ε).getD i 0 ^ 2 := by
    rw [sum_eq_sum_getD, List.length_map, znorm_length]
    exact Finset.sum_congr rfl fun i hi =>
      getD_map_pow2 _ i (by rw [znorm_length]; exact Finset.mem_range.1 hi)
  have h2 : popVar (znorm x ε)
      = (∑ i ∈ Finset.range x.length, (znorm x ε).getD i 0 ^ 2)
        / (x.length : ℝ) := by
    unfold popVar
    rw [hmean]
    simp only [sub_zero]
    rw [znorm_length, h1]
  rw [h2, znorm_sumSq x ε h, div_div,
    mul_comm (max (popStd x) ε ^ 2) ((x.length : ℝ))]
  exact mul_div_mul_left _ _ hLa

/-! ### Small concrete evaluations used by witnesses and counterexamples -/

theorem popVar_01 : popVar ([0, 1] : List ℝ) = 1 / 4 := by
  norm_num [popVar, listMean]

theorem popStd_01 : popStd ([0, 1] : List ℝ) = 1 / 2 := by
  unfold popStd
  rw [popVar_01, show (1 / 4 : ℝ) = (1 / 2) ^ 2 by norm_num,
    Real.sqrt_sq (by norm_num)]

theorem znorm_01_one : znorm ([0, 1] : List ℝ) 1 = [-(1 / 2), 1 / 2] := by
  unfold znorm
  rw [popStd_01, max_eq_right (by norm_num : (1 / 2 : ℝ) ≤ 1)]
  norm_num [listMean]

theorem znorm_01_centi : znorm ([0, 1] : List ℝ) (1 / 100) = [-1, 1] := by
  unfold znorm
  rw [popStd_01, max_eq_left (by norm_num : (1 / 100 : ℝ) ≤ 1 / 2)]
  norm_num [listMean]

theorem popStd_pos_two_le (x : List ℝ) (h : 0 < popStd x) : 2 ≤ x.length := by
  by_contra hc
  push_neg at hc
  have h01 : x.length = 0 ∨ x.length = 1 := by omega
  rcases h01 with h0 | h1
  · rw [List.length_eq_zero.1 h0] at h
    unfold popStd popVar at h
    simp at h
  · rcases List.length_eq_one.1 h1 with ⟨a, rfl⟩
    unfold popStd popVar listMean at h
    norm_num at h

theorem fftZdist_const_eval :
    fftZdist ([0, 1] : List ℝ) [5, 5] 1 1 0 = some [2] := by
  rw [fftZdist_eq [0, 1] [5, 5] 1 1 0 (by norm_num) (by norm_num) (by norm_num)
    (by norm_num)]
  have hentry : zdistFftEntry ([0, 1] : List ℝ) [5, 5] 1 (alignUp 2 1) 0 = 2 := by
    have hal : alignUp 2 1 = 2 := by norm_num [alignUp]
    rw [hal]
    have h2 := zdistFftEntry_const_window ([0, 1] : List ℝ) [5, 5] 1 2 0
      (by norm_num) (by norm_num) (by norm_num)
      (by
        intro i hi
        have hi2 : i = 0 ∨ i = 1 := by
          simp only [List.length_cons, List.length_nil] at hi
          omega
        rcases hi2 with rfl | rfl <;> rfl)
    rw [h2]
    rfl
  have hlen : ([5, 5] : List ℝ).length + 1 - ([0, 1] : List ℝ).length = 1 := rfl
  rw [hlen]
  rw [show List.range 1 = [0] from rfl, List.map_cons, List.map_nil,
    show ([5, 5] : List ℝ).length = 2 from rfl, hentry]

theorem zdistKernel_const_eval :
    zdistKernelRun (znorm ([0, 1] : List ℝ) 1) [5, 5] 1 = [1 / 2] := by
  have hrun : zdistKernelRun (znorm ([0, 1] : List ℝ) 1) [5, 5] 1
      = [zdistKernelOut (znorm ([0, 1] : List ℝ) 1) [5, 5] 1 0] := by
    unfold zdistKernelRun
    rw [znorm_length]
    rfl
  rw [hrun, zdistKernelOut_const_window ([0, 1] : List ℝ) [5, 5] 1 0 (by norm_num)
    (by norm_num)
    (by
      intro i hi
      have hi2 : i = 0 ∨ i = 1 := by
        simp only [List.length_cons, List.length_nil] at hi
        omega
      rcases hi2 with rfl | rfl <;> rfl),
    popStd_01, max_eq_right (by norm_num : (1 / 2 : ℝ) ≤ 1)]
  norm_num

theorem zdistFftEntry_anticorr_eval :
    zdistFftEntry ([0, 1] : List ℝ) [1, 0] (1 / 100) 10000 0 = 8 := by
  have hl : ([0, 1] : List ℝ).length = 2 := rfl
  simp only [zdistFftEntry]
  rw [hl, winAgg_padTo_eq [1, 0] 10000 2 0 (by norm_num) (by norm_num),
    winAgg_padTo_sq_eq [1, 0] 10000 2 0 (by norm_num) (by norm_num),
    znorm_01_centi,
    xcorrEntry_eq [-1, 1] [1, 0] 10000 0 (by norm_num) (by norm_num) (by norm_num)]
  have e1 : ∑ i ∈ Finset.range 2, ([1, 0] : List ℝ).getD (0 + i) 0 = 1 := by
    rw [Finset.sum_range_succ, Finset.sum_range_succ, Finset.sum_range_zero]
    norm_num
  have e2 : ∑ i ∈ Finset.range 2,
      ([1, 0] : List ℝ).getD (0 + i) 0 * ([1, 0] : List ℝ).getD (0 + i) 0 = 1 := by
    rw [Finset.sum_range_succ, Finset.sum_range_succ, Finset.sum_range_zero]
    norm_num
  have e3 : ∑ i ∈ Finset.range ([-1, 1] : List ℝ).length,
      ([-1, 1] : List ℝ).getD i 0 * ([1, 0] : List ℝ).getD (0 + i) 0 = -1 := by
    rw [show ([-1, 1] : List ℝ).length = 2 from rfl,
      Finset.sum_range_succ, Finset.sum_range_succ, Finset.sum_range_zero]
    norm_num
  rw [e1, e2, e3]
  have hwv : (1 : ℝ) / ((2 : ℕ) : ℝ) - (1 / ((2 : ℕ) : ℝ)) ^ 2 = 1 / 4 := by
    norm_num
  rw [hwv, max_eq_left (by norm_num : (0 : ℝ) ≤ 1 / 4),
    show (1 / 4 : ℝ) = (1 / 2) ^ 2 by norm_num,
    Real.sqrt_sq (by norm_num : (0 : ℝ) ≤ 1 / 2)]
  simp only [zWhereEntry]
  rw [if_pos (by norm_num : (0 : ℝ) < 1 / 2)]
  norm_num

theorem prefixSums_getD (x : List α) (i : ℕ) (h : i ≤ x.length) :
    (prefixSums x).getD i 0 = (x.take i).sum := by
  rw [List.getD_eq_getElem _ 0 (by rw [prefixSums_length]; omega), prefixSums_getElem]

theorem zdistKernelRun_553 :
    zdistKernelRun (znorm ([0, 1] : List ℝ) 1) [5, 5, 3] 1
      = [zdistKernelOut (znorm ([0, 1] : List ℝ) 1) [5, 5, 3] 1 0,
         zdistKernelOut (znorm ([0, 1] : List ℝ) 1) [5, 5, 3] 1 1] := by
  unfold zdistKernelRun
  rw [znorm_length]
  rfl

theorem zdistKernelOut_553_0 :
    zdistKernelOut (znorm ([0, 1] : List ℝ) 1) [5, 5, 3] 1 0 = 1 / 2 := by
  rw [zdistKernelOut_const_window ([0, 1] : List ℝ) [5, 5, 3] 1 0 (by norm_num)
    (by norm_num)
    (by
      intro i hi
      have hi2 : i = 0 ∨ i = 1 := by
        simp only [List.length_cons, List.length_nil] at hi
        omega
      rcases hi2 with rfl | rfl <;> rfl),
    popStd_01, max_eq_right (by norm_num : (1 / 2 : ℝ) ≤ 1)]
  norm_num

theorem fftSdist_crash_m1 : fftSdist ([1] : List ℚ) [1, 2] 10000 0 = none := by
  have hn : alignUp ([1, 2] : List ℚ).length 10000 = 10000 := by
    norm_num [alignUp]
  have hlen : ((padTo ([1, 2] : List ℚ) 10000).map fun v => v * v).length
      = 10000 := by
    simp [padTo_length]
  simp only [fftSdist]
  rw [hn, cumsum_eq _ 0 (Or.inr rfl), Option.some_bind,
    ewSub_window_eq _ ([1] : List ℚ).length (by norm_num), Option.some_bind, hlen,
    show ((1 : ℤ) - (([1] : List ℚ).length : ℤ)) = 0 by norm_num]
  have hs0 : sliceTo
      (xcorr (padTo ([1] : List ℚ) 10000) (padTo ([1, 2] : List ℚ) 10000) 10000)
      0 = ([] : List ℚ) := by
    unfold sliceTo
    rw [if_neg (lt_irrefl 0)]
    simp
  rw [hs0, List.map_nil]
  unfold ewAdd
  rw [if_neg (by simp)]
  rfl

/-! ### Claim theorems -/

/-- C1 (counterexample): the claim that the transform-domain and direct
paths of the Z-normalized metric compute the same function in exact
arithmetic fails when the query's population standard deviation is below
epsilon.  For the valid call Q = [0, 1], S = [5, 5], epsilon = 1 (std(Q) =
1/2 < 1, std(Q) > 0) the transform path returns [2] while the direct
kernel, launched on znorm(Q, epsilon) exactly as the dispatch layer does,
computes [1/2]; the gap m·(1 − (std/eps)²) is exact, not rounding. -/
theorem C1_counterexample :
    fftZdist ([0, 1] : List ℝ) [5, 5] 1 1 0 = some [2]
      ∧ zdistKernelRun (znorm ([0, 1] : List ℝ) 1) [5, 5] 1 = [1 / 2]
      ∧ (2 : ℝ) ≠ 1 / 2 :=
  ⟨fftZdist_const_eval, zdistKernel_const_eval, by norm_num⟩

/-- C1 (amended): in exact arithmetic, at every window index the raw and
mean-adjusted transform-domain formulas equal the corresponding direct
per-window kernel reductions, and the Z-normalized pair agrees whenever
epsilon ≤ std(Q) (for 0 < std(Q) < epsilon the two differ exactly). -/
theorem C1_path_equivalence (Q S : List ℝ) (ε : ℝ) (al k : ℕ)
    (hal : 0 < al) (hm : 1 ≤ Q.length) (hk : k + Q.length ≤ S.length) :
    sdistFftEntry Q S (alignUp S.length al) k = sdistKernelOut Q S k
      ∧ mdistFftEntry Q S (alignUp S.length al) k = mdistKernelOut (mnorm Q) S k
      ∧ (0 < ε → ε ≤ popStd Q →
          zdistFftEntry Q S ε (alignUp S.length al) k
            = zdistKernelOut (znorm Q ε) S ε k) := by
  have hS : S.length ≤ alignUp S.length al := le_alignUp _ _ hal
  exact ⟨sdist_entry_equiv Q S _ k hk hS,
    mdist_entry_equiv Q S _ k hm hk hS,
    fun hε hσ => zdist_entry_equiv Q S ε _ k hε hσ hm hk hS⟩

/-- C1 (witness): the amended equivalence instantiated at Q = S = [0, 1],
alignment 1, window 0, epsilon = 1/4 ≤ std(Q) = 1/2. -/
theorem C1_path_equivalence_witness :
    0 < 1 ∧ 1 ≤ ([0, 1] : List ℝ).length
      ∧ 0 + ([0, 1] : List ℝ).length ≤ ([0, 1] : List ℝ).length
      ∧ sdistFftEntry ([0, 1] : List ℝ) [0, 1]
          (alignUp ([0, 1] : List ℝ).length 1) 0
          = sdistKernelOut ([0, 1] : List ℝ) [0, 1] 0
      ∧ mdistFftEntry ([0, 1] : List ℝ) [0, 1]
          (alignUp ([0, 1] : List ℝ).length 1) 0
          = mdistKernelOut (mnorm ([0, 1] : List ℝ)) [0, 1] 0
      ∧ zdistFftEntry ([0, 1] : List ℝ) [0, 1] (1 / 4)
          (alignUp ([0, 1] : List ℝ).length 1) 0
          = zdistKernelOut (znorm ([0, 1] : List ℝ) (1 / 4)) [0, 1] (1 / 4) 0 := by
  have h := C1_path_equivalence [0, 1] [0, 1] (1 / 4) 1 0 (by norm_num)
    (by norm_num) (by norm_num)
  exact ⟨by norm_num, by norm_num, by norm_num, h.1, h.2.1,
    h.2.2 (by norm_num) (by rw [popStd_01]; norm_num)⟩

/-- C2 (code bug): for the valid m = 1 call Q = [1], S = [1, 2] the
transform mode raises a broadcast ValueError (`R[:-m+1]` is `R[:0]`, the
empty array, for m = 1) and produces no output array, contradicting the
documented length-(n-m+1) return; the direct mode on the same input
returns the documented full-length array [0, 1]. -/
theorem C2_output_length_bug :
    sdistModel (⟨DType.float64, [1], [1]⟩ : CArray ℚ)
        ⟨DType.float64, [2], [1, 2]⟩ "fft" = Except.error PyErr.valueError
      ∧ sdistModel (⟨DType.float64, [1], [1]⟩ : CArray ℚ)
          ⟨DType.float64, [2], [1, 2]⟩ "naive" = Except.ok [0, 1] := by
  constructor
  · unfold sdistModel
    rw [if_pos rfl, if_pos (by decide), if_pos rfl, fftSdist_crash_m1]
  · unfold sdistModel
    rw [if_pos rfl, if_pos (by decide), if_neg (by decide)]
    norm_num [sdistKernelRun, sdistKernelOut, warpSum_eq, Finset.sum_range_succ,
      List.range_succ]

/-- C3 (counterexample): for the valid call Q = [0, 1], epsilon = 1 (so
0 < std(Q) = 1/2 < epsilon), S = [5, 5, 3] whose window at index 0 is
perfectly constant, the direct mode returns 1/2 at index 0, not the query
length 2 the claim demands of both execution modes. -/
theorem C3_counterexample :
    zdistModel (⟨DType.float64, [2], [0, 1]⟩ : CArray ℝ)
        ⟨DType.float64, [3], [5, 5, 3]⟩ "naive" 1
      = Except.ok [zdistKernelOut (znorm ([0, 1] : List ℝ) 1) [5, 5, 3] 1 0,
          zdistKernelOut (znorm ([0, 1] : List ℝ) 1) [5, 5, 3] 1 1]
      ∧ zdistKernelOut (znorm ([0, 1] : List ℝ) 1) [5, 5, 3] 1 0 = 1 / 2
      ∧ (1 : ℝ) / 2 ≠ (([0, 1] : List ℝ).length : ℝ) := by
  refine ⟨?_, zdistKernelOut_553_0, by norm_num⟩
  unfold zdistModel
  rw [if_pos (by norm_num : (0 : ℝ) < 1), if_pos rfl, if_pos (by decide),
    if_pos (by rw [popStd_01]; norm_num),
    if_neg (by decide : ¬("naive" = "fft")), zdistKernelRun_553]

/-- C3 (amended): at a perfectly constant window the transform path
returns exactly m; the direct kernel returns m·(std(Q)/max(std(Q), eps))²,
which equals exactly m whenever epsilon ≤ std(Q). -/
theorem C3_degenerate_window (Q S : List ℝ) (ε : ℝ) (n k : ℕ)
    (hε : 0 < ε) (hσ : 0 < popStd Q) (hk : k + Q.length ≤ S.length)
    (hS : S.length ≤ n)
    (hconst : ∀ i, i < Q.length → S.getD (k + i) 0 = S.getD k 0) :
    zdistFftEntry Q S ε n k = Q.length
      ∧ zdistKernelOut (znorm Q ε) S ε k
          = Q.length * (popStd Q / max (popStd Q) ε) ^ 2
      ∧ (ε ≤ popStd Q → zdistKernelOut (znorm Q ε) S ε k = Q.length) := by
  have hm : 1 ≤ Q.length := by
    have := popStd_pos_two_le Q hσ
    omega
  refine ⟨zdistFftEntry_const_window Q S ε n k hm hk hS hconst,
    zdistKernelOut_const_window Q S ε k hε hm hconst, fun hle => ?_⟩
  rw [zdistKernelOut_const_window Q S ε k hε hm hconst, max_eq_left hle,
    div_self hσ.ne', one_pow, mul_one]

/-- C3 (witness): the amended statement at Q = [0, 1], S = [5, 5, 3],
epsilon = 1/4 ≤ std(Q) = 1/2, window 0 (the constant window [5, 5]). -/
theorem C3_degenerate_window_witness :
    (0 : ℝ) < 1 / 4 ∧ 0 < popStd ([0, 1] : List ℝ)
      ∧ 0 + ([0, 1] : List ℝ).length ≤ ([5, 5, 3] : List ℝ).length
      ∧ zdistFftEntry ([0, 1] : List ℝ) [5, 5, 3] (1 / 4) 3 0
          = ([0, 1] : List ℝ).length
      ∧ zdistKernelOut (znorm ([0, 1] : List ℝ) (1 / 4)) [5, 5, 3] (1 / 4) 0
          = ([0, 1] : List ℝ).length := by
  have hconst : ∀ i, i < ([0, 1] : List ℝ).length →
      ([5, 5, 3] : List ℝ).getD (0 + i) 0 = ([5, 5, 3] : List ℝ).getD 0 0 := by
    intro i hi
    have hi2 : i = 0 ∨ i = 1 := by
      simp only [List.length_cons, List.length_nil] at hi
      omega
    rcases hi2 with rfl | rfl <;> rfl
  have h := C3_degenerate_window [0, 1] [5, 5, 3] (1 / 4) 3 0 (by norm_num)
    (by rw [popStd_01]; norm_num) (by norm_num) (by norm_num) hconst
  exact ⟨by norm_num, by rw [popStd_01]; norm_num, by norm_num, h.1,
    h.2.2 (by rw [popStd_01]; norm_num)⟩

/-- C4 (counterexample): the claimed range [0, 2m] fails: for the valid
call Q = [0, 1], S = [1, 0] (an anticorrelated window), epsilon = 1/100,
the transform mode returns [8], and 8 > 2m = 4.  The attainable range is
[0, 4m]. -/
theorem C4_counterexample :
    zdistModel (⟨DType.float64, [2], [0, 1]⟩ : CArray ℝ)
        ⟨DType.float64, [2], [1, 0]⟩ "fft" (1 / 100) = Except.ok [8]
      ∧ ¬ ((8 : ℝ) ≤ 2 * (([0, 1] : List ℝ).length : ℝ)) := by
  constructor
  · unfold zdistModel
    rw [if_pos (by norm_num : (0 : ℝ) < 1 / 100), if_pos rfl, if_pos (by decide),
      if_pos (by rw [popStd_01]; norm_num), if_pos rfl,
      fftZdist_eq [0, 1] [1, 0] (1 / 100) 10000 0 (by norm_num) (by norm_num)
        (by norm_num) (by norm_num),
      show ([1, 0] : List ℝ).length + 1 - ([0, 1] : List ℝ).length = 1 from rfl,
      show List.range 1 = [0] from rfl, List.map_cons, List.map_nil,
      show ([1, 0] : List ℝ).length = 2 from rfl,
      show alignUp 2 10000 = 10000 by norm_num [alignUp],
      zdistFftEntry_anticorr_eval]
  · norm_num

/-- C4 (amended): for every valid Z-normalized call, every entry of the
transform-path output array, and every direct-kernel entry, lies in
[0, 4m] (not [0, 2m]); the first conjunct identifies the transform-path
output with the mapped per-entry formula. -/
theorem C4_zdist_range (Q S : List ℝ) (ε : ℝ) (al k : ℕ)
    (hε : 0 < ε) (hσ : 0 < popStd Q) (hal : 0 < al)
    (hk : k + Q.length ≤ S.length) :
    fftZdist Q S ε al 0
        = some ((List.range (S.length + 1 - Q.length)).map fun j =>
            zdistFftEntry Q S ε (alignUp S.length al) j)
      ∧ (0 ≤ zdistFftEntry Q S ε (alignUp S.length al) k
          ∧ zdistFftEntry Q S ε (alignUp S.length al) k ≤ 4 * Q.length)
      ∧ (0 ≤ zdistKernelOut (znorm Q ε) S ε k
          ∧ zdistKernelOut (znorm Q ε) S ε k ≤ 4 * Q.length) := by
  have h2 : 2 ≤ Q.length := popStd_pos_two_le Q hσ
  have hm : 1 ≤ Q.length := by omega
  have hS : S.length ≤ alignUp S.length al := le_alignUp _ _ hal
  exact ⟨fftZdist_eq Q S ε al 0 hε h2 (by omega) hal,
    zdistFftEntry_bounds Q S ε _ k hε hm hk hS,
    zdistKernelOut_bounds Q S ε k hε hm⟩

/-- C4 (witness): the amended range statement at Q = [0, 1], S = [1, 0],
epsilon = 1/100, alignment 1, window 0. -/
theorem C4_zdist_range_witness :
    (0 : ℝ) < 1 / 100 ∧ 0 < popStd ([0, 1] : List ℝ)
      ∧ 0 + ([0, 1] : List ℝ).length ≤ ([1, 0] : List ℝ).length
      ∧ fftZdist ([0, 1] : List ℝ) [1, 0] (1 / 100) 1 0
          = some ((List.range (([1, 0] : List ℝ).length + 1
              - ([0, 1] : List ℝ).length)).map fun j =>
                zdistFftEntry ([0, 1] : List ℝ) [1, 0] (1 / 100)
                  (alignUp ([1, 0] : List ℝ).length 1) j)
      ∧ (0 ≤ zdistFftEntry ([0, 1] : List ℝ) [1, 0] (1 / 100)
            (alignUp ([1, 0] : List ℝ).length 1) 0
          ∧ zdistFftEntry ([0, 1] : List ℝ) [1, 0] (1 / 100)
              (alignUp ([1, 0] : List ℝ).length 1) 0
            ≤ 4 * ([0, 1] : List ℝ).length)
      ∧ (0 ≤ zdistKernelOut (znorm ([0, 1] : List ℝ) (1 / 100)) [1, 0] (1 / 100) 0
          ∧ zdistKernelOut (znorm ([0, 1] : List ℝ) (1 / 100)) [1, 0] (1 / 100) 0
            ≤ 4 * ([0, 1] : List ℝ).length) := by
  have h := C4_zdist_range [0, 1] [1, 0] (1 / 100) 1 0 (by norm_num)
    (by rw [popStd_01]; norm_num) (by norm_num) (by norm_num)
  exact ⟨by norm_num, by rw [popStd_01]; norm_num, by norm_num, h.1, h.2.1, h.2.2⟩

/-- C5: the concrete direct-mode scenario Q = [1, 2, 3],
S = [1, 2, 3, 1, 2, 3, 9, 9, 9]: the raw distance array is
[0, 6, 6, 0, 38, 89, 149]; in particular entry 0 = 0, entry 3 = 0 and
entry 6 = 149 = (9-1)² + (9-2)² + (9-3)². -/
theorem C5_concrete_scenario :
    sdistModel (⟨DType.float64, [3], [1, 2, 3]⟩ : CArray ℚ)
        ⟨DType.float64, [9], [1, 2, 3, 1, 2, 3, 9, 9, 9]⟩ "direct"
      = Except.ok [0, 6, 6, 0, 38, 89, 149]
      ∧ ([0, 6, 6, 0, 38, 89, 149] : List ℚ).getD 0 0 = 0
      ∧ ([0, 6, 6, 0, 38, 89, 149] : List ℚ).getD 3 0 = 0
      ∧ ([0, 6, 6, 0, 38, 89, 149] : List ℚ).getD 6 0 = 149 := by
  refine ⟨?_, rfl, rfl, rfl⟩
  unfold sdistModel
  rw [if_pos rfl, if_pos (by decide), if_neg (by decide)]
  norm_num [sdistKernelRun, sdistKernelOut, warpSum_eq, Finset.sum_range_succ,
    List.range_succ]

/-- C6 (counterexample): passing mode = "transform" does NOT dispatch to
the transform-domain engine: on the m = 1 input where that engine raises a
ValueError (second conjunct, mode "fft"), mode "transform" succeeds with
the direct kernel's output. -/
theorem C6_counterexample :
    sdistModel (⟨DType.float64, [1], [1]⟩ : CArray ℚ)
        ⟨DType.float64, [2], [1, 2]⟩ "transform" = Except.ok [0, 1]
      ∧ sdistModel (⟨DType.float64, [1], [1]⟩ : CArray ℚ)
          ⟨DType.float64, [2], [1, 2]⟩ "fft" = Except.error PyErr.valueError := by
  constructor
  · unfold sdistModel
    rw [if_pos rfl, if_pos (by decide), if_neg (by decide)]
    norm_num [sdistKernelRun, sdistKernelOut, warpSum_eq, Finset.sum_range_succ,
      List.range_succ]
  · unfold sdistModel
    rw [if_pos rfl, if_pos (by decide), if_pos rfl, fftSdist_crash_m1]

/-- C6 (amended): the mode selector's values are "fft" (default, transform
engine) and anything else (documented "naive", direct kernels): for every
validated input, any mode other than "fft" launches the direct kernel, and
mode "fft" routes to the corresponding transform-domain function. -/
theorem C6_mode_dispatch (Q S : CArray ℝ) (mode : String) (ε : ℝ)
    (hdt : Q.dtype = S.dtype) (hsh : shapesOk Q S) (hε : 0 < ε)
    (hσ : 0 < popStd Q.data) (hmode : mode ≠ "fft") :
    sdistModel Q S mode = Except.ok (sdistKernelRun Q.data S.data)
      ∧ mdistModel Q S mode = Except.ok (mdistKernelRun (mnorm Q.data) S.data)
      ∧ zdistModel Q S mode ε
          = Except.ok (zdistKernelRun (znorm Q.data ε) S.data ε)
      ∧ sdistModel Q S "fft"
          = (fftSdist Q.data S.data 10000 0).elim
              (Except.error PyErr.valueError) Except.ok
      ∧ mdistModel Q S "fft"
          = (fftMdist Q.data S.data 10000 0).elim
              (Except.error PyErr.valueError) Except.ok
      ∧ zdistModel Q S "fft" ε
          = (fftZdist Q.data S.data ε 10000 0).elim
              (Except.error PyErr.valueError) Except.ok := by
  refine ⟨?_, ?_, ?_, ?_, ?_, ?_⟩
  · unfold sdistModel
    rw [if_pos hdt, if_pos hsh, if_neg hmode]
  · unfold mdistModel
    rw [if_pos hdt, if_pos hsh, if_neg hmode]
  · unfold zdistModel
    rw [if_pos hε, if_pos hdt, if_pos hsh, if_pos hσ, if_neg hmode]
  · unfold sdistModel
    rw [if_pos hdt, if_pos hsh, if_pos rfl]
    cases fftSdist Q.data S.data 10000 0 <;> rfl
  · unfold mdistModel
    rw [if_pos hdt, if_pos hsh, if_pos rfl]
    cases fftMdist Q.data S.data 10000 0 <;> rfl
  · unfold zdistModel
    rw [if_pos hε, if_pos hdt, if_pos hsh, if_pos hσ, if_pos rfl]
    cases fftZdist Q.data S.data ε 10000 0 <;> rfl

/-- C6 (witness): the amended dispatch statement at a concrete validated
input with mode "naive". -/
theorem C6_mode_dispatch_witness :
    (⟨DType.float64, [2], [0, 1]⟩ : CArray ℝ).dtype
        = (⟨DType.float64, [2], [1, 0]⟩ : CArray ℝ).dtype
      ∧ shapesOk (⟨DType.float64, [2], [0, 1]⟩ : CArray ℝ)
          ⟨DType.float64, [2], [1, 0]⟩
      ∧ (0 : ℝ) < 1
      ∧ sdistModel (⟨DType.float64, [2], [0, 1]⟩ : CArray ℝ)
          ⟨DType.float64, [2], [1, 0]⟩ "naive"
          = Except.ok (sdistKernelRun ([0, 1] : List ℝ) [1, 0])
      ∧ zdistModel (⟨DType.float64, [2], [0, 1]⟩ : CArray ℝ)
          ⟨DType.float64, [2], [1, 0]⟩ "naive" 1
          = Except.ok (zdistKernelRun (znorm ([0, 1] : List ℝ) 1) [1, 0] 1)
      ∧ sdistModel (⟨DType.float64, [2], [0, 1]⟩ : CArray ℝ)
          ⟨DType.float64, [2], [1, 0]⟩ "fft"
          = (fftSdist ([0, 1] : List ℝ) [1, 0] 10000 0).elim
              (Except.error PyErr.valueError) Except.ok := by
  have h := C6_mode_dispatch ⟨DType.float64, [2], [0, 1]⟩
    ⟨DType.float64, [2], [1, 0]⟩ "naive" 1 rfl (by decide) (by norm_num)
    (by rw [popStd_01]; norm_num) (by decide)
  exact ⟨rfl, by decide, by norm_num, h.1, h.2.2.1, h.2.2.2.1⟩

/-- C7 (counterexample): for the zero-length array with refinement depth
K = 1 the stabilized prefix sum raises (cp.max over a zero-size residual),
returning no array at all rather than the claimed length-1 output [0]. -/
theorem C7_counterexample : cumsum ([] : List ℚ) 1 = none := rfl

/-- C7 (amended): for every nonempty array x (or depth K = 0), cumsum
terminates with the array of exclusive prefix sums: length L+1, leading 0,
and entry i equal to the sum of the first i elements; in exact arithmetic
no correction round ever fires, so the recursion is bounded by K. -/
theorem C7_cumsum_spec (x : List ℚ) (K : ℕ) (h : x ≠ [] ∨ K = 0) :
    cumsum x K = some (prefixSums x)
      ∧ (prefixSums x).length = x.length + 1
      ∧ (prefixSums x).getD 0 0 = 0
      ∧ ∀ i, i ≤ x.length → (prefixSums x).getD i 0 = (x.take i).sum := by
  refine ⟨cumsum_eq x K h, prefixSums_length x, ?_,
    fun i hi => prefixSums_getD x i hi⟩
  rw [prefixSums_getD x 0 (by omega)]
  rfl

/-- C7 (witness): the amended prefix-sum contract at x = [1, 2], K = 3,
with the output evaluated concretely. -/
theorem C7_cumsum_spec_witness :
    (([1, 2] : List ℚ) ≠ [] ∨ (3 : ℕ) = 0)
      ∧ (cumsum ([1, 2] : List ℚ) 3 = some (prefixSums [1, 2])
        ∧ (prefixSums ([1, 2] : List ℚ)).length = ([1, 2] : List ℚ).length + 1
        ∧ (prefixSums ([1, 2] : List ℚ)).getD 0 0 = 0
        ∧ ∀ i, i ≤ ([1, 2] : List ℚ).length →
            (prefixSums ([1, 2] : List ℚ)).getD i 0
              = (([1, 2] : List ℚ).take i).sum)
      ∧ cumsum ([1, 2] : List ℚ) 3 = some [0, 1, 3] :=
  ⟨Or.inl (by decide), C7_cumsum_spec [1, 2] 3 (Or.inl (by decide)), by
    rw [cumsum_eq [1, 2] 3 (Or.inl (by decide))]
    norm_num [prefixSums, List.range_succ]⟩

/-- C8: znorm divides by max(population std, epsilon) where the population
standard deviation uses divisor length (spelled out in the first
conjunct); when std < epsilon the divisor is epsilon, so the normalized
output's population variance is (std/epsilon)², not 1. -/
theorem C8_znorm_epsilon_floor (x : List ℝ) (ε : ℝ) (hx : x ≠ [])
    (hε : 0 < ε) :
    (∀ i, i < x.length →
        (znorm x ε).getD i 0
          = (x.getD i 0 - listMean x)
            / max (Real.sqrt
                ((x.map fun v => (v - listMean x) ^ 2).sum / x.length)) ε)
      ∧ (popStd x < ε → popVar (znorm x ε) = (popStd x / ε) ^ 2) := by
  constructor
  · intro i hi
    rw [znorm_getD x ε i hi]
    rfl
  · intro hlt
    rw [znorm_popVar x ε hx, max_eq_right (le_of_lt hlt), div_pow, popStd_sq]

/-- C8 (witness): the epsilon floor at x = [0, 1], epsilon = 2 >
std(x) = 1/2, with the resulting variance evaluated to (1/4)². -/
theorem C8_znorm_epsilon_floor_witness :
    (([0, 1] : List ℝ) ≠ [] ∧ (0 : ℝ) < 2 ∧ popStd ([0, 1] : List ℝ) < 2)
      ∧ popVar (znorm ([0, 1] : List ℝ) 2) = (popStd ([0, 1] : List ℝ) / 2) ^ 2
      ∧ popVar (znorm ([0, 1] : List ℝ) 2) = 1 / 16 := by
  have h := (C8_znorm_epsilon_floor [0, 1] 2 (by decide)
    (by norm_num)).2 (by rw [popStd_01]; norm_num)
  exact ⟨⟨by decide, by norm_num, by rw [popStd_01]; norm_num⟩, h,
    by rw [h, popStd_01]; norm_num⟩

/-- C9 (counterexample): two inputs violating different contracts — a
dtype mismatch and a rank-2 shape violation — both surface to the caller
as the same bare AssertionError value, so the four violation classes are
not independently distinguishable. -/
theorem C9_counterexample :
    zdistModel (⟨DType.float32, [2], [0, 1]⟩ : CArray ℝ)
        ⟨DType.float64, [2], [0, 1]⟩ "fft" 1 = Except.error PyErr.assertionError
      ∧ zdistModel (⟨DType.float64, [2, 1], [0, 1]⟩ : CArray ℝ)
          ⟨DType.float64, [2], [0, 1]⟩ "fft" 1
          = Except.error PyErr.assertionError := by
  constructor
  · unfold zdistModel
    rw [if_pos (by norm_num : (0 : ℝ) < 1), if_neg (by decide)]
  · unfold zdistModel
    rw [if_pos (by norm_num : (0 : ℝ) < 1), if_pos rfl, if_neg (by decide)]

/-- C9 (amended): every input-contract violation aborts the call before
any computation with no output array, but every violation raises the same
generic assertion error (bare `assert`), rather than a per-contract
distinguishable error. -/
theorem C9_validation_abort (Q S : CArray ℝ) (mode : String) (ε : ℝ) :
    ((¬ 0 < ε ∨ Q.dtype ≠ S.dtype ∨ ¬ shapesOk Q S ∨ ¬ 0 < popStd Q.data) →
        zdistModel Q S mode ε = Except.error PyErr.assertionError)
      ∧ ((Q.dtype ≠ S.dtype ∨ ¬ shapesOk Q S) →
          sdistModel Q S mode = Except.error PyErr.assertionError)
      ∧ ((Q.dtype ≠ S.dtype ∨ ¬ shapesOk Q S) →
          mdistModel Q S mode = Except.error PyErr.assertionError) := by
  refine ⟨?_, ?_, ?_⟩
  · intro hviol
    unfold zdistModel
    by_cases h1 : 0 < ε
    · rw [if_pos h1]
      by_cases h2 : Q.dtype = S.dtype
      · rw [if_pos h2]
        by_cases h3 : shapesOk Q S
        · rw [if_pos h3]
          by_cases h4 : 0 < popStd Q.data
          · rcases hviol with h | h | h | h
            exacts [absurd h1 h, absurd h2 h, absurd h3 h, absurd h4 h]
          · rw [if_neg h4]
        · rw [if_neg h3]
      · rw [if_neg h2]
    · rw [if_neg h1]
  · intro hviol
    unfold sdistModel
    by_cases h2 : Q.dtype = S.dtype
    · rw [if_pos h2]
      by_cases h3 : shapesOk Q S
      · rcases hviol with h | h
        exacts [absurd h2 h, absurd h3 h]
      · rw [if_neg h3]
    · rw [if_neg h2]
  · intro hviol
    unfold mdistModel
    by_cases h2 : Q.dtype = S.dtype
    · rw [if_pos h2]
      by_cases h3 : shapesOk Q S
      · rcases hviol with h | h
        exacts [absurd h2 h, absurd h3 h]
      · rw [if_neg h3]
    · rw [if_neg h2]

/-- C9 (witness): the abort behaviour at a concrete invalid epsilon
(epsilon = 0 violates the Invalid-Epsilon contract). -/
theorem C9_validation_abort_witness :
    (¬ (0 : ℝ) < 0
        ∨ (⟨DType.float64, [2], [0, 1]⟩ : CArray ℝ).dtype
            ≠ (⟨DType.float64, [2], [0, 1]⟩ : CArray ℝ).dtype
        ∨ ¬ shapesOk (⟨DType.float64, [2], [0, 1]⟩ : CArray ℝ)
            ⟨DType.float64, [2], [0, 1]⟩
        ∨ ¬ 0 < popStd ([0, 1] : List ℝ))
      ∧ zdistModel (⟨DType.float64, [2], [0, 1]⟩ : CArray ℝ)
          ⟨DType.float64, [2], [0, 1]⟩ "fft" 0
          = Except.error PyErr.assertionError :=
  ⟨Or.inl (by norm_num),
    (C9_validation_abort ⟨DType.float64, [2], [0, 1]⟩
      ⟨DType.float64, [2], [0, 1]⟩ "fft" 0).1 (Or.inl (by norm_num))⟩

/-- C10 (counterexample): the refinement rounds are not the identity on
the zero-length array: depth 1 raises (cp.max over a zero-size residual)
while depth 0 returns [0]. -/
theorem C10_counterexample :
    cumsum ([] : List ℚ) 1 ≠ cumsum ([] : List ℚ) 0 := by
  decide

/-- C10 (amended): in exact arithmetic, for every nonempty array the
residual x - diff(y) is identically zero, the correction branch is never
taken, and cumsum(x, K) = cumsum(x, 0) for every depth K. -/
theorem C10_refinement_identity (x : List ℚ) (K : ℕ) (h : x ≠ []) :
    cumsum x K = cumsum x 0 := by
  rw [cumsum_eq x K (Or.inl h), cumsum_eq x 0 (Or.inr rfl)]

/-- C10 (witness): depth independence at x = [1, 2], K = 5. -/
theorem C10_refinement_identity_witness :
    (([1, 2] : List ℚ) ≠ [])
      ∧ cumsum ([1, 2] : List ℚ) 5 = cumsum ([1, 2] : List ℚ) 0 :=
  ⟨by decide, C10_refinement_identity [1, 2] 5 (by decide)⟩

end RapidAligner
